import Mathlib

/-!
Verification of the MAKER framework hooks: first-to-ahead-by-K voting
(`check_winner.py`), the execution ledger (`maker_state.py`) and the
probability/cost utilities (`maker_math.py`).

Modelling conventions:
* JSON values are embedded with integer numbers (float literals are outside
  the model) and without `\u` escapes.  Python `dict`s are observed in this
  program only through `dict.get` and `json.dumps(..., sort_keys=True)`, both
  of which are insensitive to insertion order, so objects are represented as
  association lists kept in strictly increasing key order ("canonical" form);
  the parser inserts members into that order with the later duplicate key
  winning, exactly the observable behaviour of `json.loads`.
* `datetime.now()` timestamps are passed in as explicit `now` arguments.
* File persistence is modelled by explicit state passing: the per-session
  `execution.json` document is the `StateDoc` value threaded through calls.
* Python floats are modelled as exact rationals; the transcendental results
  of `**` and `math.log` live in `ℝ`.  `round(x, n)` is modelled as exact
  rounding of the rational/real value.
-/

namespace Maker

/-! ### JSON values (model of Python parsed JSON) -/

/-- A parsed JSON value.  Numbers are integers in this model; objects are
association lists in strictly increasing key order (canonical form), which is
how the program observes Python dicts (`dict.get` plus sorted dumps). -/
inductive Json where
  | null
  | bool (b : Bool)
  | num (n : Int)
  | str (s : String)
  | arr (elems : List Json)
  | obj (fields : List (String × Json))

/-- Whitespace characters skipped by the JSON lexer (and by `str.strip`). -/
def isWsChar (c : Char) : Bool :=
  c = ' ' || c = '\n' || c = '\t' || c = '\r'

/-- Drop leading whitespace. -/
def wsSkip : List Char → List Char
  | [] => []
  | c :: cs => if isWsChar c then wsSkip cs else c :: cs

/-- Decimal digit test. -/
def isDig (c : Char) : Bool := '0' ≤ c && c ≤ '9'

/-- The character of a decimal digit. -/
def digChar (d : Nat) : Char := Char.ofNat (48 + d)

/-- Big-endian decimal digits of `n`, by fuel-guarded division (structural, so
it evaluates in the kernel). -/
def natChars : Nat → Nat → List Char
  | 0, _ => []
  | _ + 1, 0 => []
  | fuel + 1, n + 1 => natChars fuel ((n + 1) / 10) ++ [digChar ((n + 1) % 10)]

/-- Decimal representation of a natural number. -/
def natRepr (n : Nat) : List Char := if n = 0 then ['0'] else natChars n n

/-- Decimal representation of an integer (Python `repr` of an `int`). -/
def intRepr (i : Int) : List Char :=
  (if i < 0 then ['-'] else []) ++ natRepr i.natAbs

/-- The opening/closing brace characters. -/
def lbr : Char := Char.ofNat 123

/-- See `lbr`. -/
def rbr : Char := Char.ofNat 125

/-- JSON escaping of one character; `json.dumps` escapes backslash, quote and
the common control characters (the `\uXXXX` forms are outside the model). -/
def escChar (c : Char) : List Char :=
  if c = '"' then ['\\', '"']
  else if c = '\\' then ['\\', '\\']
  else if c = '\n' then ['\\', 'n']
  else if c = '\t' then ['\\', 't']
  else if c = '\r' then ['\\', 'r']
  else [c]

/-- JSON escaping of a character list. -/
def escList : List Char → List Char
  | [] => []
  | c :: cs => escChar c ++ escList cs

/-- A JSON string literal: quote, escaped body, quote. -/
def strLit (s : String) : List Char := '"' :: (escList s.data ++ ['"'])

/-- The serialized `null` keyword. -/
def litNull : List Char := "null".data

/-- The serialized `true` keyword. -/
def litTrue : List Char := "true".data

/-- The serialized `false` keyword. -/
def litFalse : List Char := "false".data

mutual

/-- Serialize a value the way `json.dumps(v, sort_keys=True,
separators=(',', ':'))` does: compact separators and object fields emitted in
key order (canonical values store them sorted already). -/
def dumpVal : Json → List Char
  | .null => litNull
  | .bool true => litTrue
  | .bool false => litFalse
  | .num n => intRepr n
  | .str s => strLit s
  | .arr es => '[' :: (dumpElems es ++ [']'])
  | .obj fs => lbr :: (dumpFields fs ++ [rbr])

/-- Comma-separated element list. -/
def dumpElems : List Json → List Char
  | [] => []
  | e :: es => dumpVal e ++ dumpElemsTail es

/-- The `,`-prefixed continuation of `dumpElems`. -/
def dumpElemsTail : List Json → List Char
  | [] => []
  | e :: es => ',' :: (dumpVal e ++ dumpElemsTail es)

/-- Comma-separated `"key":value` list. -/
def dumpFields : List (String × Json) → List Char
  | [] => []
  | (k, v) :: fs => strLit k ++ ':' :: (dumpVal v ++ dumpFieldsTail fs)

/-- The `,`-prefixed continuation of `dumpFields`. -/
def dumpFieldsTail : List (String × Json) → List Char
  | [] => []
  | (k, v) :: fs => ',' :: (strLit k ++ ':' :: (dumpVal v ++ dumpFieldsTail fs))

end

/-! ### JSON parsing (model of `json.loads`) -/

/-- Inverse of the escape table. -/
def unescChar (c : Char) : Option Char :=
  if c = '"' then some '"'
  else if c = '\\' then some '\\'
  else if c = '/' then some '/'
  else if c = 'n' then some '\n'
  else if c = 't' then some '\t'
  else if c = 'r' then some '\r'
  else if c = 'b' then some (Char.ofNat 8)
  else if c = 'f' then some (Char.ofNat 12)
  else none

/-- Parse a string body after the opening quote, returning the unescaped
content and the input after the closing quote (structural on the input). -/
def parseStrBody : List Char → Option (List Char × List Char)
  | [] => none
  | c :: rest =>
      if c = '"' then some ([], rest)
      else if c = '\\' then
        match rest with
        | [] => none
        | e :: rest2 =>
            match unescChar e with
            | some c2 => (parseStrBody rest2).map fun p => (c2 :: p.1, p.2)
            | none => none
      else (parseStrBody rest).map fun p => (c :: p.1, p.2)

/-- Split a leading run of digits from the input. -/
def takeDigs : List Char → List Char × List Char
  | [] => ([], [])
  | c :: cs =>
      if isDig c then
        let p := takeDigs cs
        (c :: p.1, p.2)
      else ([], c :: cs)

/-- Numeric value of a big-endian digit run. -/
def digsVal (ds : List Char) : Nat :=
  ds.foldl (fun a c => 10 * a + (c.toNat - 48)) 0

/-- Parse an integer literal (optional minus sign, then at least one digit). -/
def parseIntFrom : List Char → Option (Int × List Char)
  | [] => none
  | c :: r =>
      if c = '-' then
        let p := takeDigs r
        if p.1 = [] then none else some (-(digsVal p.1 : Int), p.2)
      else
        let p := takeDigs (c :: r)
        if p.1 = [] then none else some ((digsVal p.1 : Int), p.2)

/-- Code-point lexicographic comparison of character lists (the order Python
string comparison and `sort_keys=True` use). -/
def charsLt : List Char → List Char → Bool
  | [], [] => false
  | [], _ :: _ => true
  | _ :: _, [] => false
  | a :: as, b :: bs =>
      if a.toNat < b.toNat then true
      else if b.toNat < a.toNat then false
      else charsLt as bs

/-- Code-point lexicographic order on strings. -/
def strLt (a b : String) : Bool := charsLt a.data b.data

/-- Insert a member into a canonically ordered field list; a duplicate key
replaces the stored value (the later `json.loads` member wins). -/
def objInsert (k : String) (v : Json) : List (String × Json) → List (String × Json)
  | [] => [(k, v)]
  | (k', v') :: t =>
      if strLt k k' then (k, v) :: (k', v') :: t
      else if k = k' then (k, v) :: t
      else (k', v') :: objInsert k v t

/-- Build the canonical dict from members in textual order. -/
def objOfList (ms : List (String × Json)) : List (String × Json) :=
  ms.foldl (fun acc kv => objInsert kv.1 kv.2 acc) []

mutual

/-- Fuel-guarded recursive-descent JSON value parser. -/
def parseVal : Nat → List Char → Option (Json × List Char)
  | 0, _ => none
  | fuel + 1, cs =>
      match wsSkip cs with
      | 'n' :: 'u' :: 'l' :: 'l' :: r => some (.null, r)
      | 't' :: 'r' :: 'u' :: 'e' :: r => some (.bool true, r)
      | 'f' :: 'a' :: 'l' :: 's' :: 'e' :: r => some (.bool false, r)
      | '"' :: r => (parseStrBody r).map fun p => (.str (String.mk p.1), p.2)
      | '[' :: r =>
          match wsSkip r with
          | ']' :: r2 => some (.arr [], r2)
          | r2 => (parseElems fuel r2).map fun p => (.arr p.1, p.2)
      | c :: r =>
          if c = lbr then
            match wsSkip r with
            | c2 :: r2 =>
                if c2 = rbr then some (.obj [], r2)
                else (parseFields fuel (c2 :: r2)).map fun p => (.obj (objOfList p.1), p.2)
            | [] => none
          else if c = '-' || isDig c then
            (parseIntFrom (c :: r)).map fun p => (.num p.1, p.2)
          else none
      | [] => none

/-- One-or-more comma-separated array elements, consuming the closing `]`. -/
def parseElems : Nat → List Char → Option (List Json × List Char)
  | 0, _ => none
  | fuel + 1, cs =>
      match parseVal fuel cs with
      | none => none
      | some (v, r) =>
          match wsSkip r with
          | ',' :: r2 => (parseElems fuel r2).map fun p => (v :: p.1, p.2)
          | ']' :: r2 => some ([v], r2)
          | _ => none

/-- One-or-more comma-separated object members, consuming the closing brace;
members are returned in textual order. -/
def parseFields : Nat → List Char → Option (List (String × Json) × List Char)
  | 0, _ => none
  | fuel + 1, cs =>
      match wsSkip cs with
      | '"' :: r =>
          match parseStrBody r with
          | none => none
          | some (kcs, r1) =>
              match wsSkip r1 with
              | ':' :: r2 =>
                  match parseVal fuel r2 with
                  | none => none
                  | some (v, r3) =>
                      match wsSkip r3 with
                      | ',' :: r4 => (parseFields fuel r4).map fun p =>
                          ((String.mk kcs, v) :: p.1, p.2)
                      | c :: r4 =>
                          if c = rbr then some ([(String.mk kcs, v)], r4) else none
                      | [] => none
              | _ => none
      | _ => none

end

/-- `json.loads`: parse a complete document, rejecting trailing garbage. -/
def jsonParse (s : String) : Option Json :=
  match parseVal (s.data.length + 1) s.data with
  | some (v, r) => if wsSkip r = [] then some v else none
  | none => none

/-- First-key bound: the head key (if any) is strictly above `k`. -/
def oBound (k : String) : List (String × Json) → Bool
  | [] => true
  | (k', _) :: _ => strLt k k'

mutual

/-- Canonical form: every object in the value keeps its fields in strictly
increasing key order (the invariant of parsed dicts). -/
def canonV : Json → Bool
  | .null => true
  | .bool _ => true
  | .num _ => true
  | .str _ => true
  | .arr es => canonL es
  | .obj fs => canonO fs

/-- `canonV` on every element. -/
def canonL : List Json → Bool
  | [] => true
  | v :: vs => canonV v && canonL vs

/-- Strictly increasing keys and canonical values. -/
def canonO : List (String × Json) → Bool
  | [] => true
  | (k, v) :: fs => canonV v && oBound k fs && canonO fs

end

/-- The continuation after a serialized number must not begin with another
digit (every JSON delimiter and the end of input qualify). -/
def noDigitHead : List Char → Bool
  | [] => true
  | c :: _ => !isDig c

/-! ### `check_winner.py` -/

/-- Look up `fields.get(k, d)` on a parsed dict. -/
def objGetD (fs : List (String × Json)) (k : String) (d : Json) : Json :=
  match fs.find? fun kv => kv.1 = k with
  | some kv => kv.2
  | none => d

/-- The comparable projection built by `normalize_vote`: for a dict, keep only
`action` and `result` (defaulting to `""`); anything else is kept whole.  The
two keys are listed in sorted order, as `sort_keys=True` serializes them. -/
def comparableOf : Json → Json
  | .obj fs => .obj [("action", objGetD fs "action" (.str "")),
                      ("result", objGetD fs "result" (.str ""))]
  | v => v

/-- `normalize_vote`: parse the record, project it, and serialize the result
compactly with sorted keys; `none` for unparsable records. -/
def normalize_vote (s : String) : Option String :=
  (jsonParse s).map fun v => String.mk (dumpVal (comparableOf v))

/-- The vote records that survive the read loop: blank lines are skipped and
unparsable records are dropped; each survivor is paired with its canonical
key. -/
def validPairs (lines : List String) : List (String × String) :=
  lines.filterMap fun v =>
    if v.data.all isWsChar then none
    else (normalize_vote v).map fun n => (v, n)

/-- First-seen-order deduplication (the key order of `Counter`, which is dict
insertion order). -/
def firstDedupAux (seen : List String) : List String → List String
  | [] => []
  | k :: ks =>
      if k ∈ seen then firstDedupAux seen ks
      else k :: firstDedupAux (k :: seen) ks

/-- See `firstDedupAux`. -/
def firstDedup (l : List String) : List String := firstDedupAux [] l

/-- `Counter(keys)` as an entry list: canonical keys in first-seen order, each
with its multiplicity. -/
def groupEntries (keys : List String) : List (String × Nat) :=
  (firstDedup keys).map fun g => (g, keys.count g)

/-- Stable descending insertion by count (the comparison
`Counter.most_common` performs). -/
def insertDesc (e : String × Nat) : List (String × Nat) → List (String × Nat)
  | [] => [e]
  | b :: t => if b.2 ≤ e.2 then e :: b :: t else b :: insertDesc e t

/-- `Counter.most_common()`: a stable sort by count descending, so entries
with equal counts keep their first-seen order. -/
def mostCommon : List (String × Nat) → List (String × Nat)
  | [] => []
  | e :: t => insertDesc e (mostCommon t)

/-- `norm_to_original[key]`: the earliest-arriving original record whose
canonical key is `key`. -/
def firstOriginal (pairs : List (String × String)) (key : String) : Option String :=
  (pairs.find? fun pr => pr.2 = key).map Prod.fst

/-- The three return shapes of `check_winner`. -/
inductive Decision where
  | noVotes (votes : Nat) (reason : String)
  | win (winner : Option Json) (votes margin candidates k : Nat)
  | pending (votes leader_count candidates k : Nat) (reason : String)

/-- `True` exactly on the `decided: true` return shape. -/
def Decision.decided : Decision → Bool
  | .noVotes _ _ => false
  | .win _ _ _ _ _ => true
  | .pending _ _ _ _ _ => false

/-- `check_winner(vote_dir, k)` on the record lines of `votes.jsonl` (the
missing-file branch returns `noVotes` before reaching this logic and is not
part of any claim).  `k` is a natural number; the CLI rejects `k < 1`. -/
def check_winner (lines : List String) (k : Nat) : Decision :=
  let pairs := validPairs lines
  let keys := pairs.map Prod.snd
  match mostCommon (groupEntries keys) with
  | [] => .noVotes 0 "No valid votes"
  | (gk, gc) :: [] =>
      if k ≤ gc then
        .win ((firstOriginal pairs gk).bind jsonParse) gc gc 1 k
      else
        .pending keys.length gc (firstDedup keys).length k
          ("No k-ahead winner yet (need margin >= " ++ String.mk (natRepr k) ++ ")")
  | (gk, gc) :: (_, c2) :: _ =>
      if k ≤ gc - c2 then
        .win ((firstOriginal pairs gk).bind jsonParse) gc (gc - c2)
          (firstDedup keys).length k
      else
        .pending keys.length gc (firstDedup keys).length k
          ("No k-ahead winner yet (need margin >= " ++ String.mk (natRepr k) ++ ")")

/-! Specification-side notions for the tally claims: the top count, the
first-seen group attaining it, and the runner-up count (the largest count
after removing one copy of the maximum). -/

/-- The largest count among the entries. -/
def maxCount (es : List (String × Nat)) : Nat := es.foldr (fun e m => max e.2 m) 0

/-- Remove the first entry carrying count `m`. -/
def dropFirstMax (m : Nat) : List (String × Nat) → List (String × Nat)
  | [] => []
  | e :: es => if e.2 = m then es else e :: dropFirstMax m es

/-- The canonical keys of the valid records, in arrival order. -/
def validKeys (lines : List String) : List String :=
  (validPairs lines).map Prod.snd

/-- The distinct groups in first-seen order. -/
def groups (lines : List String) : List String := firstDedup (validKeys lines)

/-- The top count among the groups. -/
def leaderCount (lines : List String) : Nat := maxCount (groupEntries (validKeys lines))

/-- The runner-up count: the largest count after one copy of the maximum is
removed (equal to `leaderCount` when two groups tie at the top). -/
def secondCount (lines : List String) : Nat :=
  maxCount (dropFirstMax (leaderCount lines) (groupEntries (validKeys lines)))

/-- The leading entry the spec designates: the first group in first-seen
order whose count attains the maximum. -/
def leaderEntry (lines : List String) : Option (String × Nat) :=
  (groupEntries (validKeys lines)).find? fun e => e.2 = leaderCount lines

/-- The record the spec designates as winner: the earliest-arriving original
record of the leading group, decoded. -/
def winningRecord (lines : List String) : Option Json :=
  (leaderEntry lines).bind fun e =>
    (firstOriginal (validPairs lines) e.1).bind jsonParse

/-! ### `maker_state.py` -/

/-- The `metrics` sub-dict (always created complete by `initialize`). -/
structure Metrics where
  total_votes_cast : Int
  red_flags : Int
  completed_steps : Int
  failed_steps : Int
deriving DecidableEq

/-- One step record as written by `update_step`. -/
structure StepRecord where
  step_id : String
  status : String
  votes : Int
  margin : Int
  red_flags : Int
  winner : Option Json
  updated_at : String

/-- The `execution.json` document.  Every field is optional because
`update_step` and `mark_complete` start from the empty dict `{}` when no
state was persisted. -/
structure StateDoc where
  session_id : Option String := none
  task_description : Option String := none
  total_steps : Option Int := none
  k : Option Int := none
  started_at : Option String := none
  status : Option String := none
  current_step : Option Nat := none
  steps : Option (List (String × StepRecord)) := none
  metrics : Option Metrics := none
  completed_at : Option String := none

/-- The `{}` shell that `update_step`/`mark_complete` substitute for an
absent document. -/
def emptyShell : StateDoc := {}

/-- `MAKERState.initialize`: build and persist a fresh document. -/
def initState (session_id : String) (total_steps : Int) (task_description : String)
    (k : Int) (now : String) : StateDoc :=
  { session_id := some session_id
    task_description := some task_description
    total_steps := some total_steps
    k := some k
    started_at := some now
    status := some "in_progress"
    current_step := some 0
    steps := some []
    metrics := some ⟨0, 0, 0, 0⟩
    completed_at := none }

/-- Dict assignment `steps[step_id] = r`: replace in place, or append. -/
def stepsInsert (l : List (String × StepRecord)) (sid : String) (r : StepRecord) :
    List (String × StepRecord) :=
  if l.any fun kv => kv.1 = sid then
    l.map fun kv => if kv.1 = sid then (sid, r) else kv
  else l ++ [(sid, r)]

/-- Dict lookup on the steps mapping. -/
def stepsLookup (l : List (String × StepRecord)) (sid : String) : Option StepRecord :=
  (l.find? fun kv => kv.1 = sid).map Prod.snd

/-- The number of step records whose status is `decided`. -/
def decidedCount (l : List (String × StepRecord)) : Nat :=
  l.countP fun kv => kv.2.status = "decided"

/-- `MAKERState.update_step`.  `st0 = none` models a session with no
persisted state (`self.load()` returned `None`); the `or {}` shell then has
no `metrics` key, and the unconditional `state["metrics"]` access raises
`KeyError`, modelled as the `error` branch. -/
def update_step (st0 : Option StateDoc) (step_id status : String) (winner : Option Json)
    (votes margin red_flags : Int) (now : String) : Except String StateDoc :=
  let state := st0.getD emptyShell
  let step_data : StepRecord :=
    { step_id := step_id, status := status, votes := votes, margin := margin
      red_flags := red_flags, winner := winner, updated_at := now }
  let steps1 := stepsInsert (state.steps.getD []) step_id step_data
  let state1 := { state with steps := some steps1 }
  match state1.metrics with
  | none => .error "KeyError: metrics"
  | some m =>
      let mState :=
        if status = "decided" then
          ({ m with completed_steps := m.completed_steps + 1 },
           { state1 with current_step := some (decidedCount steps1) })
        else if status = "failed" then
          ({ m with failed_steps := m.failed_steps + 1 }, state1)
        else (m, state1)
      let m2 := { mState.1 with
        total_votes_cast := mState.1.total_votes_cast + votes
        red_flags := mState.1.red_flags + red_flags }
      .ok { mState.2 with metrics := some m2 }

/-- `MAKERState.mark_complete`: stamp a terminal status and completion time
onto whatever document exists (the `{}` shell when none does). -/
def mark_complete (st0 : Option StateDoc) (success : Bool) (now : String) : StateDoc :=
  let state := st0.getD emptyShell
  { state with
    status := some (if success then "success" else "failed")
    completed_at := some now }

/-- One `update_step` call's arguments. -/
structure UpdateCall where
  step_id : String
  status : String
  winner : Option Json
  votes : Int
  margin : Int
  red_flags : Int
  now : String

/-- Run a sequence of `update_step` calls against a persisted document. -/
def runUpdates (st : StateDoc) : List UpdateCall → Except String StateDoc
  | [] => .ok st
  | c :: cs =>
      match update_step (some st) c.step_id c.status c.winner c.votes c.margin
          c.red_flags c.now with
      | .ok st' => runUpdates st' cs
      | .error e => .error e

/-- The last call of the sequence that targeted `sid`. -/
def lastCall (calls : List UpdateCall) (sid : String) : Option UpdateCall :=
  calls.reverse.find? fun c => c.step_id = sid

/-- The step record a call writes. -/
def recordOf (c : UpdateCall) : StepRecord :=
  { step_id := c.step_id, status := c.status, votes := c.votes, margin := c.margin
    red_flags := c.red_flags, winner := c.winner, updated_at := c.now }

/-- Sum of the `votes` arguments. -/
def votesSum (calls : List UpdateCall) : Int := (calls.map fun c => c.votes).sum

/-- Sum of the `red_flags` arguments. -/
def flagsSum (calls : List UpdateCall) : Int := (calls.map fun c => c.red_flags).sum

/-- Number of calls with the given status argument. -/
def statusCalls (s : String) (calls : List UpdateCall) : Nat :=
  calls.countP fun c => c.status = s

/-- Whether the stored record for `sid` currently has status `decided`. -/
def stepDecided (st : StateDoc) (sid : String) : Bool :=
  match stepsLookup (st.steps.getD []) sid with
  | some r => r.status = "decided"
  | none => false

/-- A call trace in which no `failed`/`voting` call ever overwrites a step
record that currently has status `decided` (the situation that leaves
`current_step` stale). -/
def safeTrace (st : StateDoc) : List UpdateCall → Bool
  | [] => true
  | c :: cs =>
      (decide (c.status = "decided") || !stepDecided st c.step_id) &&
      (match update_step (some st) c.step_id c.status c.winner c.votes c.margin
          c.red_flags c.now with
       | .ok st' => safeTrace st' cs
       | .error _ => true)

/-! ### `maker_math.py` -/

/-- `True` exactly on the `error` shape (a raised `ValueError`). -/
def isErr {α : Type} : Except String α → Bool
  | .error _ => true
  | .ok _ => false

/-- `per_step_success_probability(p, k) = 1 / (1 + ((1-p)/p)^k)`, guarded by
the documented domain checks. -/
def per_step_success_probability (p : ℚ) (k : Int) : Except String ℚ :=
  if p ≤ 0 ∨ 1 ≤ p then .error "p must be in (0, 1)"
  else if k < 1 then .error "k must be >= 1"
  else .ok (1 / (1 + ((1 - p) / p) ^ k.toNat))

/-- The closed-form value of `per_step_success_probability` on its domain. -/
def perStepVal (p : ℚ) (k : Nat) : ℚ := 1 / (1 + ((1 - p) / p) ^ k)

open scoped Classical in
/-- `full_task_success_probability(p, k, s, m) = (1 + ((1-p)/p)^k)^(-s/m)`,
guarded by the documented domain checks. -/
noncomputable def full_task_success_probability (p : ℚ) (k s m : Int) :
    Except String ℝ :=
  if p ≤ 0 ∨ 1 ≤ p then .error "p must be in (0, 1)"
  else if k < 1 ∨ s < 1 ∨ m < 1 then .error "k, s, m must be >= 1"
  else .ok ((1 + (((1 - p) / p : ℚ) : ℝ) ^ k.toNat) ^ (-(s : ℝ) / (m : ℝ)))

open scoped Classical in
/-- `minimum_k_for_target(p, s, target, m)`: the guards, then the closed-form
ceiling with its two early-exit branches. -/
noncomputable def minimum_k_for_target (p : ℚ) (s : Int) (target : ℚ) (m : Int) :
    Except String Int :=
  if p ≤ 0 ∨ 1 ≤ p then .error "p must be in (0, 1)"
  else if target ≤ 0 ∨ 1 ≤ target then .error "target must be in (0, 1)"
  else if s < 1 ∨ m < 1 then .error "s, m must be >= 1"
  else
    let inner : ℝ := ((target : ℚ) : ℝ) ^ (-(m : ℝ) / (s : ℝ)) - 1
    if inner ≤ 0 then .ok 1
    else
      let ratio : ℚ := (1 - p) / p
      if ratio ≤ 0 then .ok 1
      else .ok (max 1 ⌈Real.log inner / Real.log ((ratio : ℚ) : ℝ)⌉)

/-- Exact rounding to `d` decimal places (Python's float `round` modelled on
the exact value). -/
def roundTo (d : Nat) (q : ℚ) : ℚ := ((round (q * 10 ^ d) : ℤ) : ℚ) / 10 ^ d

/-- The real-valued analogue of `roundTo`. -/
noncomputable def roundToR (d : Nat) (x : ℝ) : ℝ :=
  ((round (x * 10 ^ d) : ℤ) : ℝ) / 10 ^ d

/-- The dict returned by `expected_cost_estimate`. -/
structure CostEstimate where
  votes_per_step : ℚ
  total_votes : ℚ
  total_cost : ℚ
  cost_per_step : ℚ
deriving DecidableEq

/-- `expected_cost_estimate(p, k, s, cost_per_call)`: the heuristic
`k + (k-1)*0.5 + k*0.1` votes per step, scaled and rounded.  The source
performs no input validation here, so the function is total. -/
def expected_cost_estimate (p : ℚ) (k s : Int) (cost_per_call : ℚ) : CostEstimate :=
  let votes_per_step : ℚ := (k : ℚ) + ((k : ℚ) - 1) * (1 / 2) + (k : ℚ) * (1 / 10)
  let total_votes := votes_per_step * (s : ℚ)
  let total_cost := total_votes * cost_per_call
  { votes_per_step := roundTo 2 votes_per_step
    total_votes := roundTo 1 total_votes
    total_cost := roundTo 4 total_cost
    cost_per_step := roundTo 4 (votes_per_step * cost_per_call) }

/-- The dict returned by `recommend_k` (the free-text `reasoning` field is
presentation only and is not modelled). -/
structure Recommendation where
  recommended_k : Int
  k_min : Int
  task_success_probability : ℝ
  target : ℚ

/-- `recommend_k(p, s, task_type)`: pick the target for the task type,
delegate to `minimum_k_for_target`, add the safety margin, and evaluate the
achieved reliability. -/
noncomputable def recommend_k (p : ℚ) (s : Int) (task_type : String) :
    Except String Recommendation :=
  let target : ℚ :=
    if task_type = "fast" then 9 / 10
    else if task_type = "high_stakes" then 999 / 1000
    else 99 / 100
  match minimum_k_for_target p s target 1 with
  | .error e => .error e
  | .ok k_min =>
      let recommended_k := if task_type = "fast" then k_min else max 3 k_min
      match full_task_success_probability p recommended_k s 1 with
      | .error e => .error e
      | .ok rel =>
          .ok { recommended_k := recommended_k, k_min := k_min
                task_success_probability := roundToR 4 rel, target := target }

/-! ## Theorems -/

/-! ### Probability utilities: guards and shape (C7, C8) -/

theorem per_step_err (p : ℚ) (k : Int) (h : p ≤ 0 ∨ 1 ≤ p ∨ k < 1) :
    isErr (per_step_success_probability p k) = true := by
  by_cases hp : p ≤ 0 ∨ 1 ≤ p
  · simp only [per_step_success_probability, if_pos hp]; rfl
  · have hk : k < 1 := by tauto
    simp only [per_step_success_probability, if_neg hp, if_pos hk]; rfl

theorem full_task_err (p : ℚ) (k s m : Int)
    (h : p ≤ 0 ∨ 1 ≤ p ∨ k < 1 ∨ s < 1 ∨ m < 1) :
    isErr (full_task_success_probability p k s m) = true := by
  by_cases hp : p ≤ 0 ∨ 1 ≤ p
  · simp only [full_task_success_probability, if_pos hp]; rfl
  · have hk : k < 1 ∨ s < 1 ∨ m < 1 := by tauto
    simp only [full_task_success_probability, if_neg hp, if_pos hk]; rfl

theorem min_k_err (p : ℚ) (s : Int) (target : ℚ) (m : Int)
    (h : p ≤ 0 ∨ 1 ≤ p ∨ target ≤ 0 ∨ 1 ≤ target ∨ s < 1 ∨ m < 1) :
    isErr (minimum_k_for_target p s target m) = true := by
  by_cases hp : p ≤ 0 ∨ 1 ≤ p
  · simp only [minimum_k_for_target, if_pos hp]; rfl
  · by_cases ht : target ≤ 0 ∨ 1 ≤ target
    · simp only [minimum_k_for_target, if_neg hp, if_pos ht]; rfl
    · have hs : s < 1 ∨ m < 1 := by tauto
      simp only [minimum_k_for_target, if_neg hp, if_neg ht, if_pos hs]; rfl

theorem recommend_err (p : ℚ) (s : Int) (task_type : String)
    (h : p ≤ 0 ∨ 1 ≤ p ∨ s < 1) :
    isErr (recommend_k p s task_type) = true := by
  set target : ℚ :=
    if task_type = "fast" then 9 / 10
    else if task_type = "high_stakes" then 999 / 1000
    else 99 / 100 with htarget
  have htv : ¬ (target ≤ 0 ∨ 1 ≤ target) := by
    rw [htarget]
    split <;> try split
    all_goals norm_num
  have herr : isErr (minimum_k_for_target p s target 1) = true := by
    apply min_k_err
    tauto
  rw [recommend_k, ← htarget]
  cases hmk : minimum_k_for_target p s target 1 with
  | error e => rfl
  | ok v => rw [hmk] at herr; simp [isErr] at herr

/-- Claim C7 (corrected): the guarded utilities — `perStepSuccessProbability`,
`fullTaskSuccessProbability`, `minimumKForTarget` and `recommendK` — fail
with an input-domain error whenever a probability or target argument falls
outside the open interval `(0,1)` or a count argument is below `1`;
`expectedCostEstimate`, by contrast, performs no input validation at all. -/
theorem c7_amended :
    (∀ (p : ℚ) (k : Int), p ≤ 0 ∨ 1 ≤ p ∨ k < 1 →
        isErr (per_step_success_probability p k) = true)
  ∧ (∀ (p : ℚ) (k s m : Int), p ≤ 0 ∨ 1 ≤ p ∨ k < 1 ∨ s < 1 ∨ m < 1 →
        isErr (full_task_success_probability p k s m) = true)
  ∧ (∀ (p : ℚ) (s : Int) (target : ℚ) (m : Int),
        p ≤ 0 ∨ 1 ≤ p ∨ target ≤ 0 ∨ 1 ≤ target ∨ s < 1 ∨ m < 1 →
        isErr (minimum_k_for_target p s target m) = true)
  ∧ (∀ (p : ℚ) (s : Int) (task_type : String), p ≤ 0 ∨ 1 ≤ p ∨ s < 1 →
        isErr (recommend_k p s task_type) = true) :=
  ⟨per_step_err, full_task_err, min_k_err, recommend_err⟩

/-- Witness for C7: each guarded utility rejects a concrete out-of-domain
input. -/
theorem c7_amended_witness :
    isErr (per_step_success_probability 2 1) = true
  ∧ isErr (full_task_success_probability (1/2) 0 1 1) = true
  ∧ isErr (minimum_k_for_target (1/2) 1 2 1) = true
  ∧ isErr (recommend_k (1/2) 0 "standard") = true :=
  ⟨c7_amended.1 2 1 (by norm_num),
   c7_amended.2.1 (1/2) 0 1 1 (by norm_num),
   c7_amended.2.2.1 (1/2) 1 2 1 (by norm_num),
   c7_amended.2.2.2 (1/2) 0 "standard" (by norm_num)⟩

/-- Counterexample for C7 as stated: `expected_cost_estimate` returns a
normal result — no error, no clamping — on arguments that are far out of the
documented domain (`p = 2` outside `(0,1)`, count `k = 0` below `1`). -/
theorem c7_counterexample :
    expected_cost_estimate 2 0 1 1 =
      { votes_per_step := -1/2, total_votes := -1/2, total_cost := -1/2
        cost_per_step := -1/2 } := by
  simp only [expected_cost_estimate, roundTo]
  norm_num [round_eq]

theorem perStep_pos (p : ℚ) (k : Nat) (hp0 : 0 < p) (hp1 : p < 1) :
    0 < perStepVal p k ∧ perStepVal p k < 1 ∧ 0 < (1 - p) / p := by
  have hr : 0 < (1 - p) / p := div_pos (by linarith) hp0
  have hrk : 0 < ((1 - p) / p) ^ k := pow_pos hr k
  refine ⟨?_, ?_, hr⟩
  · exact div_pos one_pos (by linarith)
  · rw [perStepVal, div_lt_one (by linarith)]
    linarith

/-- Claim C8 (corrected): on the domain, `per_step_success_probability`
returns `1 / (1 + ((1-p)/p)^k)`, which lies in `(0,1)` and strictly
increases in `p`; it increases in `k` only when `p > 1/2` (for `p < 1/2` it
decreases, see the counterexample). -/
theorem c8_amended :
    (∀ (p : ℚ) (k : Int), 0 < p → p < 1 → 1 ≤ k →
        per_step_success_probability p k = .ok (perStepVal p k.toNat))
  ∧ (∀ (p : ℚ) (k : Nat), 0 < p → p < 1 → 1 ≤ k →
        0 < perStepVal p k ∧ perStepVal p k < 1)
  ∧ (∀ (p q : ℚ) (k : Nat), 0 < p → p < q → q < 1 → 1 ≤ k →
        perStepVal p k < perStepVal q k)
  ∧ (∀ (p : ℚ) (k₁ k₂ : Nat), 1/2 < p → p < 1 → 1 ≤ k₁ → k₁ < k₂ →
        perStepVal p k₁ < perStepVal p k₂) := by
  refine ⟨?_, ?_, ?_, ?_⟩
  · intro p k hp0 hp1 hk
    rw [per_step_success_probability, if_neg (by push_neg; constructor <;> linarith),
      if_neg (by omega)]
    rfl
  · intro p k hp0 hp1 _
    exact ⟨(perStep_pos p k hp0 hp1).1, (perStep_pos p k hp0 hp1).2.1⟩
  · intro p q k hp0 hpq hq1 hk
    have hq0 : 0 < q := lt_trans hp0 hpq
    have hp1 : p < 1 := lt_trans hpq hq1
    have hrq : 0 < (1 - q) / q := (perStep_pos q k hq0 hq1).2.2
    have hrp : 0 < (1 - p) / p := (perStep_pos p k hp0 hp1).2.2
    have hlt : (1 - q) / q < (1 - p) / p := by
      rw [div_lt_div_iff hq0 hp0]
      nlinarith
    have hpow : ((1 - q) / q) ^ k < ((1 - p) / p) ^ k :=
      pow_lt_pow_left hlt (le_of_lt hrq) (by omega)
    rw [perStepVal, perStepVal]
    apply one_div_lt_one_div_of_lt
    · positivity
    · linarith
  · intro p k₁ k₂ hp2 hp1 _ hk
    have hp0 : 0 < p := by linarith
    have hr0 : 0 < (1 - p) / p := (perStep_pos p k₁ hp0 hp1).2.2
    have hr1 : (1 - p) / p < 1 := by
      rw [div_lt_one hp0]
      linarith
    have hpow : ((1 - p) / p) ^ k₂ < ((1 - p) / p) ^ k₁ :=
      pow_lt_pow_right_of_lt_one hr0 hr1 hk
    rw [perStepVal, perStepVal]
    apply one_div_lt_one_div_of_lt
    · positivity
    · linarith

/-- Witness for C8: the amended properties at concrete inputs. -/
theorem c8_amended_witness :
    per_step_success_probability (3/4) 2 = .ok (perStepVal (3/4) (Int.toNat 2))
  ∧ (0 < perStepVal (3/4) 2 ∧ perStepVal (3/4) 2 < 1)
  ∧ perStepVal (1/2) 2 < perStepVal (3/4) 2
  ∧ perStepVal (3/4) 1 < perStepVal (3/4) 2 :=
  ⟨c8_amended.1 (3/4) 2 (by norm_num) (by norm_num) (by norm_num),
   c8_amended.2.1 (3/4) 2 (by norm_num) (by norm_num) (by norm_num),
   c8_amended.2.2.1 (1/2) (3/4) 2 (by norm_num) (by norm_num) (by norm_num) (by norm_num),
   c8_amended.2.2.2 (3/4) 1 2 (by norm_num) (by norm_num) (by norm_num) (by norm_num)⟩

/-! ### Vote tally: `most_common` bridge lemmas (C1, C2, C3) -/

theorem insertDesc_perm (e : String × Nat) (l : List (String × Nat)) :
    List.Perm (insertDesc e l) (e :: l) := by
  induction l with
  | nil => rfl
  | cons b t ih =>
      rw [insertDesc]
      split
      · rfl
      · exact (ih.cons b).trans (List.Perm.swap e b t)

theorem mostCommon_perm (l : List (String × Nat)) : List.Perm (mostCommon l) l := by
  induction l with
  | nil => rfl
  | cons e t ih => exact (insertDesc_perm e (mostCommon t)).trans (ih.cons e)

theorem maxCount_perm {l₁ l₂ : List (String × Nat)} (h : List.Perm l₁ l₂) :
    maxCount l₁ = maxCount l₂ := by
  induction h with
  | nil => rfl
  | cons x _ ih =>
      show max x.2 (maxCount _) = max x.2 (maxCount _)
      rw [ih]
  | swap x y t =>
      show max (y.2) (max (x.2) (maxCount t)) = max (x.2) (max (y.2) (maxCount t))
      rw [Nat.max_left_comm]
  | trans _ _ ih₁ ih₂ => exact ih₁.trans ih₂

theorem mostCommon_length (l : List (String × Nat)) :
    (mostCommon l).length = l.length := (mostCommon_perm l).length_eq

theorem insertDesc_head (e : String × Nat) (l : List (String × Nat)) :
    (insertDesc e l).head? = some e ∨ (insertDesc e l).head? = l.head? := by
  cases l with
  | nil => exact Or.inl rfl
  | cons b t =>
      rw [insertDesc]
      split
      · exact Or.inl rfl
      · exact Or.inr rfl

theorem insertDesc_chain (e : String × Nat) (l : List (String × Nat))
    (h : List.Chain' (fun x y => y.2 ≤ x.2) l) :
    List.Chain' (fun x y => y.2 ≤ x.2) (insertDesc e l) := by
  induction l with
  | nil => exact List.chain'_singleton e
  | cons b t ih =>
      rw [insertDesc]
      split
      · rename_i hbe
        exact List.Chain'.cons hbe h
      · rename_i hbe
        have ht := (List.chain'_cons'.mp h).2
        refine List.chain'_cons'.mpr ⟨?_, ih ht⟩
        intro y hy
        rcases insertDesc_head e t with hh | hh
        · rw [hh] at hy
          cases hy
          omega
        · rw [hh] at hy
          exact (List.chain'_cons'.mp h).1 y hy

theorem mostCommon_chain (l : List (String × Nat)) :
    List.Chain' (fun x y => y.2 ≤ x.2) (mostCommon l) := by
  induction l with
  | nil => exact List.chain'_nil
  | cons e t ih => exact insertDesc_chain e (mostCommon t) ih

theorem chain_maxCount : ∀ (x : String × Nat) (xs : List (String × Nat)),
    List.Chain' (fun a b => b.2 ≤ a.2) (x :: xs) → maxCount (x :: xs) = x.2
  | x, [], _ => by simp [maxCount]
  | x, y :: ys, h => by
      have h1 := (List.chain'_cons.mp h).1
      have h2 := (List.chain'_cons.mp h).2
      have := chain_maxCount y ys h2
      show max x.2 (maxCount (y :: ys)) = x.2
      rw [this]
      omega

theorem maxCount_dropFirstMax_le (m : Nat) (l : List (String × Nat)) :
    maxCount (dropFirstMax m l) ≤ maxCount l := by
  induction l with
  | nil => exact Nat.le_refl _
  | cons e t ih =>
      rw [dropFirstMax]
      split
      · show maxCount t ≤ max e.2 (maxCount t)
        omega
      · show max e.2 (maxCount (dropFirstMax m t)) ≤ max e.2 (maxCount t)
        omega

theorem mostCommon_spec : ∀ (a : String × Nat) (l : List (String × Nat)),
    ∃ e t, mostCommon (a :: l) = e :: t
      ∧ e.2 = maxCount (a :: l)
      ∧ (a :: l).find? (fun x => x.2 = maxCount (a :: l)) = some e
      ∧ List.Perm t (dropFirstMax (maxCount (a :: l)) (a :: l))
  | a, [] => by
      refine ⟨a, [], rfl, by simp [maxCount], by simp [List.find?_cons, maxCount], ?_⟩
      rw [dropFirstMax, if_pos (by simp [maxCount])]
  | a, b :: l' => by
      obtain ⟨e, t, hmc, hmax, hfind, hperm⟩ := mostCommon_spec b l'
      have hmcl : maxCount (b :: l') = e.2 := hmax.symm
      show ∃ e' t', insertDesc a (mostCommon (b :: l')) = e' :: t' ∧ _
      rw [hmc, insertDesc]
      by_cases hle : e.2 ≤ a.2
      · rw [if_pos hle]
        have hM : maxCount (a :: b :: l') = a.2 := by
          show max a.2 (maxCount (b :: l')) = a.2
          omega
        refine ⟨a, e :: t, rfl, hM.symm, ?_, ?_⟩
        · rw [List.find?_cons_of_pos _ (by simp [hM])]
        · rw [dropFirstMax, if_pos hM.symm]
          exact (hmc ▸ mostCommon_perm (b :: l'))
      · rw [if_neg hle]
        have hM : maxCount (a :: b :: l') = maxCount (b :: l') := by
          show max a.2 (maxCount (b :: l')) = maxCount (b :: l')
          omega
        refine ⟨e, insertDesc a t, rfl, by omega, ?_, ?_⟩
        · rw [List.find?_cons_of_neg _ (by simp [hM]; omega), hM]
          exact hfind
        · rw [hM, dropFirstMax, if_neg (by omega)]
          exact (insertDesc_perm a t).trans (hperm.cons a)

/-- Claim C1 (confirmed): with at least two distinct canonical groups and
`k ≥ 1`, `check_winner` declares a winner iff
`leaderCount - secondCount ≥ k`, and on declaration returns exactly the
winning decision: margin `leaderCount - secondCount`, votes `leaderCount`,
and the earliest-arriving original record of the leading group, decoded. -/
theorem c1_thm (lines : List String) (k : Nat) (hk : 1 ≤ k)
    (hg : 2 ≤ (groups lines).length) :
    ((check_winner lines k).decided = true ↔
      secondCount lines + k ≤ leaderCount lines)
  ∧ ((check_winner lines k).decided = true →
      check_winner lines k = Decision.win (winningRecord lines) (leaderCount lines)
        (leaderCount lines - secondCount lines) ((groups lines).length) k) := by
  have hglen : (groupEntries (validKeys lines)).length = (groups lines).length := by
    rw [groupEntries, List.length_map]
    rfl
  obtain ⟨a, ge', hge⟩ : ∃ a ge', groupEntries (validKeys lines) = a :: ge' := by
    cases hcase : groupEntries (validKeys lines) with
    | nil =>
        rw [hcase] at hglen
        simp at hglen
        exact absurd hg (by omega)
    | cons a ge' => exact ⟨a, ge', rfl⟩
  obtain ⟨e, t, hmc, hmax, hfind, hperm⟩ := mostCommon_spec a ge'
  rw [← hge] at hmc hmax hfind hperm
  have hlead : leaderCount lines = e.2 := hmax.symm
  have hLE : leaderEntry lines = some e := by
    rw [leaderEntry, leaderCount]
    exact hfind
  have hsec : secondCount lines = maxCount t := by
    rw [secondCount, leaderCount]
    exact (maxCount_perm hperm).symm
  have hlen2 : (mostCommon (groupEntries (validKeys lines))).length =
      (groups lines).length := by
    rw [mostCommon_length, hglen]
  obtain ⟨e2, t2, ht⟩ : ∃ e2 t2, t = e2 :: t2 := by
    cases t with
    | nil =>
        rw [hmc] at hlen2
        simp at hlen2
        exact absurd hg (by omega)
    | cons e2 t2 => exact ⟨e2, t2, rfl⟩
  have hchain := mostCommon_chain (groupEntries (validKeys lines))
  rw [hmc, ht] at hchain
  have he2 : e2.2 = maxCount t := by
    rw [ht]
    exact (chain_maxCount e2 t2 (List.chain'_cons.mp hchain).2).symm
  have hsle : secondCount lines ≤ leaderCount lines := by
    rw [hsec, leaderCount, maxCount_perm hperm]
    exact maxCount_dropFirstMax_le _ _
  rw [ht] at hmc
  have hmc' : mostCommon (groupEntries (List.map Prod.snd (validPairs lines))) =
      e :: e2 :: t2 := hmc
  have hgr : (firstDedup (List.map Prod.snd (validPairs lines))).length =
      (groups lines).length := rfl
  have hcw : check_winner lines k =
      (if k ≤ e.2 - e2.2 then
        Decision.win ((firstOriginal (validPairs lines) e.1).bind jsonParse) e.2
          (e.2 - e2.2) (firstDedup (List.map Prod.snd (validPairs lines))).length k
      else
        Decision.pending (List.map Prod.snd (validPairs lines)).length e.2
          (firstDedup (List.map Prod.snd (validPairs lines))).length k
          ("No k-ahead winner yet (need margin >= " ++ String.mk (natRepr k) ++ ")")) := by
    simp only [check_winner]
    rw [hmc']
  have hwin : winningRecord lines = (firstOriginal (validPairs lines) e.1).bind jsonParse := by
    rw [winningRecord, hLE]
    rfl
  constructor
  · rw [hcw]
    by_cases hkm : k ≤ e.2 - e2.2
    · rw [if_pos hkm]
      simp only [Decision.decided, true_iff]
      rw [hlead, hsec, ← he2] at hsle ⊢
      omega
    · rw [if_neg hkm]
      simp only [Decision.decided, Bool.false_eq_true, false_iff]
      rw [hlead, hsec, ← he2] at hsle ⊢
      omega
  · intro hdec
    rw [hcw] at hdec ⊢
    by_cases hkm : k ≤ e.2 - e2.2
    · rw [if_pos hkm] at hdec ⊢
      rw [hwin, hlead, hsec, ← he2, hgr]
    · rw [if_neg hkm] at hdec
      exact absurd hdec (by simp [Decision.decided])

/-- Witness for C1: the spec's own example `[A,A,A,A,B]` with `k = 3` is
decided with margin `3`. -/
theorem c1_witness :
    ((check_winner ["1", "1", "1", "1", "2"] 3).decided = true ↔
      secondCount ["1", "1", "1", "1", "2"] + 3 ≤ leaderCount ["1", "1", "1", "1", "2"])
  ∧ ((check_winner ["1", "1", "1", "1", "2"] 3).decided = true →
      check_winner ["1", "1", "1", "1", "2"] 3 =
        Decision.win (winningRecord ["1", "1", "1", "1", "2"])
          (leaderCount ["1", "1", "1", "1", "2"])
          (leaderCount ["1", "1", "1", "1", "2"] - secondCount ["1", "1", "1", "1", "2"])
          ((groups ["1", "1", "1", "1", "2"]).length) 3) :=
  c1_thm ["1", "1", "1", "1", "2"] 3 (by decide) (by decide)

/-- Claim C2 (confirmed): when the valid records form a single canonical
group and `k ≥ 1`, `check_winner` declares that sole candidate the winner
iff its count reaches `k`, and the returned margin equals that count (the
absent runner-up counts as zero votes). -/
theorem c2_thm (lines : List String) (k : Nat) (hk : 1 ≤ k)
    (hg : (groups lines).length = 1) :
    ((check_winner lines k).decided = true ↔ k ≤ leaderCount lines)
  ∧ ((check_winner lines k).decided = true →
      check_winner lines k = Decision.win (winningRecord lines) (leaderCount lines)
        (leaderCount lines) 1 k) := by
  have hglen : (groupEntries (validKeys lines)).length = (groups lines).length := by
    rw [groupEntries, List.length_map]
    rfl
  obtain ⟨a, ge', hge⟩ : ∃ a ge', groupEntries (validKeys lines) = a :: ge' := by
    cases hcase : groupEntries (validKeys lines) with
    | nil =>
        rw [hcase] at hglen
        simp at hglen
        exact absurd hg (by omega)
    | cons a ge' => exact ⟨a, ge', rfl⟩
  obtain ⟨e, t, hmc, hmax, hfind, hperm⟩ := mostCommon_spec a ge'
  rw [← hge] at hmc hmax hfind
  have hlen2 : (mostCommon (groupEntries (validKeys lines))).length = 1 := by
    rw [mostCommon_length, hglen, hg]
  have ht : t = [] := by
    rw [hmc] at hlen2
    simpa using hlen2
  subst ht
  have hlead : leaderCount lines = e.2 := hmax.symm
  have hLE : leaderEntry lines = some e := by
    rw [leaderEntry, leaderCount]
    exact hfind
  have hmc' : mostCommon (groupEntries (List.map Prod.snd (validPairs lines))) = [e] := hmc
  have hcw : check_winner lines k =
      (if k ≤ e.2 then
        Decision.win ((firstOriginal (validPairs lines) e.1).bind jsonParse) e.2 e.2 1 k
      else
        Decision.pending (List.map Prod.snd (validPairs lines)).length e.2
          (firstDedup (List.map Prod.snd (validPairs lines))).length k
          ("No k-ahead winner yet (need margin >= " ++ String.mk (natRepr k) ++ ")")) := by
    simp only [check_winner]
    rw [hmc']
  have hwin : winningRecord lines = (firstOriginal (validPairs lines) e.1).bind jsonParse := by
    rw [winningRecord, hLE]
    rfl
  constructor
  · rw [hcw]
    by_cases hkm : k ≤ e.2
    · rw [if_pos hkm]
      simp only [Decision.decided, true_iff]
      rw [hlead]
      exact hkm
    · rw [if_neg hkm]
      simp only [Decision.decided, Bool.false_eq_true, false_iff]
      rw [hlead]
      exact hkm
  · intro hdec
    rw [hcw] at hdec ⊢
    by_cases hkm : k ≤ e.2
    · rw [if_pos hkm] at hdec ⊢
      rw [hwin, hlead]
    · rw [if_neg hkm] at hdec
      exact absurd hdec (by simp [Decision.decided])

/-- Witness for C2: the spec's own example `[A,A,A]` with `k = 3` is decided
with `votes = margin = 3`. -/
theorem c2_witness :
    ((check_winner ["1", "1", "1"] 3).decided = true ↔ 3 ≤ leaderCount ["1", "1", "1"])
  ∧ ((check_winner ["1", "1", "1"] 3).decided = true →
      check_winner ["1", "1", "1"] 3 =
        Decision.win (winningRecord ["1", "1", "1"]) (leaderCount ["1", "1", "1"])
          (leaderCount ["1", "1", "1"]) 1 3) :=
  c2_thm ["1", "1", "1"] 3 (by decide) (by decide)

/-- Claim C3 (confirmed): the tally is deterministic — it is a pure function
of the arrival-ordered record list — and among groups tied at the top count
the leader (the entry every report and any declared winner is built from) is
the group whose earliest record arrived first: the head of the stable
`most_common` ordering equals the first entry, in first-seen order, whose
count attains the maximum. -/
theorem c3_thm (lines : List String) (k : Nat) :
    (check_winner lines k = check_winner lines k)
  ∧ ((groups lines) ≠ [] →
      (mostCommon (groupEntries (validKeys lines))).head? = leaderEntry lines)
  ∧ (∀ w v m c, check_winner lines k = Decision.win w v m c k →
      w = winningRecord lines ∧ v = leaderCount lines)
  ∧ (∀ v lc c r, check_winner lines k = Decision.pending v lc c k r →
      lc = leaderCount lines) := by
  refine ⟨rfl, ?_⟩
  have hglen : (groupEntries (validKeys lines)).length = (groups lines).length := by
    rw [groupEntries, List.length_map]
    rfl
  cases hge : groupEntries (validKeys lines) with
  | nil =>
      have hnil : groups lines = [] := by
        rw [hge] at hglen
        simp at hglen
        exact List.eq_nil_of_length_eq_zero hglen.symm
      have hcw : check_winner lines k = Decision.noVotes 0 "No valid votes" := by
        have hge' : groupEntries (List.map Prod.snd (validPairs lines)) = [] := hge
        simp only [check_winner]
        rw [hge']
        rfl
      refine ⟨fun h => absurd hnil h, ?_, ?_⟩
      · intro w v m c heq
        rw [hcw] at heq
        exact Decision.noConfusion heq
      · intro v lc c r heq
        rw [hcw] at heq
        exact Decision.noConfusion heq
  | cons a ge' =>
      obtain ⟨e, t, hmc, hmax, hfind, hperm⟩ := mostCommon_spec a ge'
      have hlead : leaderCount lines = e.2 := by
        rw [leaderCount, hge]
        exact hmax.symm
      have hLE : leaderEntry lines = some e := by
        rw [leaderEntry, leaderCount, hge]
        exact hfind
      have hwin : winningRecord lines =
          (firstOriginal (validPairs lines) e.1).bind jsonParse := by
        rw [winningRecord, hLE]
        rfl
      have hmcv : mostCommon (groupEntries (List.map Prod.snd (validPairs lines))) =
          e :: t := by
        rw [show groupEntries (List.map Prod.snd (validPairs lines)) = a :: ge' from hge]
        exact hmc
      refine ⟨fun _ => ?_, ?_, ?_⟩
      · rw [hmc, hLE]
        rfl
      · intro w v m c heq
        cases t with
        | nil =>
            have hmc' : mostCommon (groupEntries (List.map Prod.snd (validPairs lines))) =
                [e] := hmcv
            have hcw : check_winner lines k =
                (if k ≤ e.2 then
                  Decision.win ((firstOriginal (validPairs lines) e.1).bind jsonParse)
                    e.2 e.2 1 k
                else
                  Decision.pending (List.map Prod.snd (validPairs lines)).length e.2
                    (firstDedup (List.map Prod.snd (validPairs lines))).length k
                    ("No k-ahead winner yet (need margin >= " ++
                      String.mk (natRepr k) ++ ")")) := by
              simp only [check_winner]
              rw [hmc']
            rw [hcw] at heq
            by_cases hkm : k ≤ e.2
            · rw [if_pos hkm] at heq
              obtain ⟨hw, hv, -, -⟩ := Decision.win.inj heq
              exact ⟨hw ▸ hwin.symm, hv ▸ hlead.symm⟩
            · rw [if_neg hkm] at heq
              exact Decision.noConfusion heq
        | cons e2 t2 =>
            have hmc' : mostCommon (groupEntries (List.map Prod.snd (validPairs lines))) =
                e :: e2 :: t2 := hmcv
            have hcw : check_winner lines k =
                (if k ≤ e.2 - e2.2 then
                  Decision.win ((firstOriginal (validPairs lines) e.1).bind jsonParse)
                    e.2 (e.2 - e2.2)
                    (firstDedup (List.map Prod.snd (validPairs lines))).length k
                else
                  Decision.pending (List.map Prod.snd (validPairs lines)).length e.2
                    (firstDedup (List.map Prod.snd (validPairs lines))).length k
                    ("No k-ahead winner yet (need margin >= " ++
                      String.mk (natRepr k) ++ ")")) := by
              simp only [check_winner]
              rw [hmc']
            rw [hcw] at heq
            by_cases hkm : k ≤ e.2 - e2.2
            · rw [if_pos hkm] at heq
              obtain ⟨hw, hv, -, -⟩ := Decision.win.inj heq
              exact ⟨hw ▸ hwin.symm, hv ▸ hlead.symm⟩
            · rw [if_neg hkm] at heq
              exact Decision.noConfusion heq
      · intro v lc c r heq
        cases t with
        | nil =>
            have hmc' : mostCommon (groupEntries (List.map Prod.snd (validPairs lines))) =
                [e] := hmcv
            have hcw : check_winner lines k =
                (if k ≤ e.2 then
                  Decision.win ((firstOriginal (validPairs lines) e.1).bind jsonParse)
                    e.2 e.2 1 k
                else
                  Decision.pending (List.map Prod.snd (validPairs lines)).length e.2
                    (firstDedup (List.map Prod.snd (validPairs lines))).length k
                    ("No k-ahead winner yet (need margin >= " ++
                      String.mk (natRepr k) ++ ")")) := by
              simp only [check_winner]
              rw [hmc']
            rw [hcw] at heq
            by_cases hkm : k ≤ e.2
            · rw [if_pos hkm] at heq
              exact Decision.noConfusion heq
            · rw [if_neg hkm] at heq
              obtain ⟨-, hlc, -, -⟩ := Decision.pending.inj heq
              exact hlc ▸ hlead.symm
        | cons e2 t2 =>
            have hmc' : mostCommon (groupEntries (List.map Prod.snd (validPairs lines))) =
                e :: e2 :: t2 := hmcv
            have hcw : check_winner lines k =
                (if k ≤ e.2 - e2.2 then
                  Decision.win ((firstOriginal (validPairs lines) e.1).bind jsonParse)
                    e.2 (e.2 - e2.2)
                    (firstDedup (List.map Prod.snd (validPairs lines))).length k
                else
                  Decision.pending (List.map Prod.snd (validPairs lines)).length e.2
                    (firstDedup (List.map Prod.snd (validPairs lines))).length k
                    ("No k-ahead winner yet (need margin >= " ++
                      String.mk (natRepr k) ++ ")")) := by
              simp only [check_winner]
              rw [hmc']
            rw [hcw] at heq
            by_cases hkm : k ≤ e.2 - e2.2
            · rw [if_pos hkm] at heq
              exact Decision.noConfusion heq
            · rw [if_neg hkm] at heq
              obtain ⟨-, hlc, -, -⟩ := Decision.pending.inj heq
              exact hlc ▸ hlead.symm

/-- Witness for C3: on the tied collection `[A,A,B,B]` the reported leader is
the first-seen group `A`, and on `[A,A,A,A,B]` the declared winner is the
decoded earliest `A` record with the leader count. -/
theorem c3_witness :
    (mostCommon (groupEntries (validKeys ["1", "1", "2", "2"]))).head? =
      leaderEntry ["1", "1", "2", "2"]
  ∧ (some (Json.num 1) = winningRecord ["1", "1", "1", "1", "2"]
      ∧ 4 = leaderCount ["1", "1", "1", "1", "2"])
  ∧ 2 = leaderCount ["1", "1", "2", "2"] :=
  ⟨(c3_thm ["1", "1", "2", "2"] 3).2.1 (by decide),
   (c3_thm ["1", "1", "1", "1", "2"] 3).2.2.1 (some (Json.num 1)) 4 3 2 rfl,
   (c3_thm ["1", "1", "2", "2"] 3).2.2.2 4 2 2
     "No k-ahead winner yet (need margin >= 3)" rfl⟩

/-! ### Execution ledger (C4, C5, C6, C10) -/

theorem update_step_eq (st : StateDoc) (m : Metrics) (hm : st.metrics = some m)
    (sid status : String) (w : Option Json) (v mg rf : Int) (now : String) :
    update_step (some st) sid status w v mg rf now = .ok
      { st with
        steps := some (stepsInsert (st.steps.getD []) sid ⟨sid, status, v, mg, rf, w, now⟩)
        current_step :=
          if status = "decided" then
            some (decidedCount (stepsInsert (st.steps.getD []) sid ⟨sid, status, v, mg, rf, w, now⟩))
          else st.current_step
        metrics := some ⟨m.total_votes_cast + v, m.red_flags + rf,
          m.completed_steps + (if status = "decided" then 1 else 0),
          m.failed_steps + (if status = "failed" then 1 else 0)⟩ } := by
  have hne : status = "decided" → ¬ status = "failed" := by
    intro h1 h2
    rw [h1] at h2
    exact absurd h2 (by decide)
  by_cases hd : status = "decided"
  · simp [update_step, hm, hd, hne hd]
  · by_cases hf : status = "failed"
    · simp [update_step, hm, hd, hf]
    · simp [update_step, hm, hd, hf]

theorem find?_replace (l : List (String × StepRecord)) (k k' : String) (r : StepRecord) :
    ((l.map fun kv => if kv.1 = k then (k, r) else kv).find? fun kv => kv.1 = k') =
      if k' = k then ((l.find? fun kv => kv.1 = k).map fun _ => (k, r))
      else l.find? fun kv => kv.1 = k' := by
  induction l with
  | nil => simp
  | cons e t ih =>
      by_cases he : e.1 = k <;> by_cases hk : k' = k
      · subst hk
        simp [he, ih]
      · have he' : ¬ e.1 = k' := by
          rw [he]
          exact fun hh => hk hh.symm
        simp [he, he', hk, ih, show ¬ (k = k') from fun h => hk h.symm]
      · subst hk
        simp [he, ih]
      · by_cases hp : e.1 = k'
        · simp [he, hp, hk]
        · simp [he, hp, hk, ih]

theorem stepsLookup_insert (l : List (String × StepRecord)) (k k' : String)
    (r : StepRecord) :
    stepsLookup (stepsInsert l k r) k' =
      if k' = k then some r else stepsLookup l k' := by
  rw [stepsInsert]
  split
  · rename_i hany
    rw [stepsLookup, find?_replace]
    by_cases hk : k' = k
    · rw [if_pos hk, if_pos hk]
      cases hfind : l.find? fun kv => kv.1 = k with
      | none =>
          obtain ⟨e, hmem, he⟩ := List.any_eq_true.mp hany
          exact absurd he (by simpa using List.find?_eq_none.mp hfind e hmem)
      | some x => rfl
    · rw [if_neg hk, if_neg hk]
      rfl
  · rename_i hany
    rw [stepsLookup, List.find?_append]
    by_cases hk : k' = k
    · subst hk
      have hnone : (l.find? fun kv => kv.1 = k') = none :=
        List.find?_eq_none.mpr fun kv hkv => by
          simpa using fun hc => hany (List.any_eq_true.mpr ⟨kv, hkv, by simpa using hc⟩)
      simp [hnone, stepsLookup, List.find?]
    · have hone : ([(k, r)].find? fun kv => kv.1 = k') = none := by
        simp [List.find?, show ¬ (k = k') from fun h => hk h.symm]
      rw [hone, Option.or_none, if_neg hk]
      rfl

theorem stepsInsert_keys (l : List (String × StepRecord)) (k : String) (r : StepRecord) :
    (stepsInsert l k r).map Prod.fst =
      if l.any fun kv => kv.1 = k then l.map Prod.fst
      else l.map Prod.fst ++ [k] := by
  rw [stepsInsert]
  split
  · rw [List.map_map]
    apply List.map_congr_left
    intro kv _
    by_cases hkv : kv.1 = k <;> simp [hkv]
  · rw [List.map_append]
    rfl

theorem stepsInsert_nodup (l : List (String × StepRecord)) (k : String) (r : StepRecord)
    (h : (l.map Prod.fst).Nodup) : ((stepsInsert l k r).map Prod.fst).Nodup := by
  rw [stepsInsert_keys]
  split
  · exact h
  · rename_i hany
    have hk : k ∉ l.map Prod.fst := by
      intro hmem
      obtain ⟨kv, hkv, hfst⟩ := List.mem_map.mp hmem
      exact hany (List.any_eq_true.mpr ⟨kv, hkv, by simpa using hfst⟩)
    simp [List.nodup_append, h, hk]

theorem decidedCount_replace (l : List (String × StepRecord)) (k : String) (r : StepRecord)
    (hr : ¬ r.status = "decided")
    (hall : ∀ e ∈ l, e.1 = k → ¬ e.2.status = "decided") :
    decidedCount (l.map fun kv => if kv.1 = k then (k, r) else kv) = decidedCount l := by
  induction l with
  | nil => rfl
  | cons e t ih =>
      have iht := ih fun x hx => hall x (List.mem_cons_of_mem e hx)
      by_cases he : e.1 = k
      · have hed : ¬ e.2.status = "decided" := hall e (List.mem_cons_self e t) he
        simp [decidedCount, List.countP_cons, he, hr, hed] at iht ⊢
        exact iht
      · simp [decidedCount, List.countP_cons, he] at iht ⊢
        omega

theorem decidedCount_stepsInsert (l : List (String × StepRecord)) (k : String)
    (r : StepRecord) (hr : ¬ r.status = "decided")
    (hall : ∀ e ∈ l, e.1 = k → ¬ e.2.status = "decided") :
    decidedCount (stepsInsert l k r) = decidedCount l := by
  rw [stepsInsert]
  split
  · exact decidedCount_replace l k r hr hall
  · rw [decidedCount, List.countP_append]
    simp [decidedCount, List.countP_cons, hr]

theorem find?_nodup_all (l : List (String × StepRecord)) (k : String)
    (hnd : (l.map Prod.fst).Nodup)
    (hfind : ∀ e, (l.find? fun kv => kv.1 = k) = some e → ¬ e.2.status = "decided") :
    ∀ e ∈ l, e.1 = k → ¬ e.2.status = "decided" := by
  induction l with
  | nil => intro e he; simp at he
  | cons a t ih =>
      intro e hmem he
      rcases List.mem_cons.mp hmem with rfl | hmem'
      · exact hfind e (by simp [List.find?_cons, he])
      · by_cases ha : a.1 = k
        · exfalso
          rw [List.map_cons, List.nodup_cons] at hnd
          exact hnd.1 (ha ▸ he ▸ List.mem_map.mpr ⟨e, hmem', rfl⟩)
        · rw [List.map_cons, List.nodup_cons] at hnd
          refine ih hnd.2 (fun x hx => hfind x ?_) e hmem' he
          simpa [List.find?_cons, ha] using hx

theorem stepDecided_false (st : StateDoc) (sid : String) (h : stepDecided st sid = false) :
    ∀ e, ((st.steps.getD []).find? fun kv => kv.1 = sid) = some e →
      ¬ e.2.status = "decided" := by
  intro e he
  rw [stepDecided, stepsLookup, he] at h
  simpa using h

theorem runUpdates_safe : ∀ (calls : List UpdateCall) (st : StateDoc) (m : Metrics),
    st.metrics = some m →
    ((st.steps.getD []).map Prod.fst).Nodup →
    st.current_step = some (decidedCount (st.steps.getD [])) →
    safeTrace st calls = true →
    ∃ st', runUpdates st calls = .ok st'
      ∧ st'.current_step = some (decidedCount (st'.steps.getD []))
  | [], st, m, _, _, hcur, _ => ⟨st, rfl, hcur⟩
  | c :: cs, st, m, hm, hnd, hcur, hsafe => by
      rw [safeTrace, update_step_eq st m hm, Bool.and_eq_true] at hsafe
      obtain ⟨hsel, hrest⟩ := hsafe
      rw [runUpdates, update_step_eq st m hm]
      set rec : StepRecord := ⟨c.step_id, c.status, c.votes, c.margin, c.red_flags,
        c.winner, c.now⟩ with hrec
      set st1 : StateDoc :=
        { st with
          steps := some (stepsInsert (st.steps.getD []) c.step_id rec)
          current_step :=
            if c.status = "decided" then
              some (decidedCount (stepsInsert (st.steps.getD []) c.step_id rec))
            else st.current_step
          metrics := some ⟨m.total_votes_cast + c.votes, m.red_flags + c.red_flags,
            m.completed_steps + (if c.status = "decided" then 1 else 0),
            m.failed_steps + (if c.status = "failed" then 1 else 0)⟩ } with hst1
      have hnd1 : ((st1.steps.getD []).map Prod.fst).Nodup := by
        rw [hst1]
        exact stepsInsert_nodup _ _ _ hnd
      have hcur1 : st1.current_step = some (decidedCount (st1.steps.getD [])) := by
        by_cases hd : c.status = "decided"
        · simp [hst1, hd]
        · have hsel' : stepDecided st c.step_id = false := by
            rcases Bool.or_eq_true_iff.mp hsel with h | h
            · exact absurd (of_decide_eq_true h) hd
            · simpa using h
          have hall := find?_nodup_all _ c.step_id hnd (stepDecided_false st c.step_id hsel')
          have hrd : ¬ rec.status = "decided" := by
            rw [hrec]
            exact hd
          simp only [hst1, if_neg hd]
          rw [hcur]
          simp [decidedCount_stepsInsert _ _ _ hrd hall]
      exact runUpdates_safe cs st1 _ rfl hnd1 hcur1 hrest

theorem runUpdates_metrics : ∀ (calls : List UpdateCall) (st : StateDoc) (m : Metrics),
    st.metrics = some m →
    ∃ st', runUpdates st calls = .ok st'
      ∧ st'.metrics = some ⟨m.total_votes_cast + votesSum calls,
          m.red_flags + flagsSum calls,
          m.completed_steps + (statusCalls "decided" calls : Int),
          m.failed_steps + (statusCalls "failed" calls : Int)⟩
      ∧ ∀ sid, stepsLookup (st'.steps.getD []) sid =
          ((lastCall calls sid).map recordOf).or (stepsLookup (st.steps.getD []) sid)
  | [], st, m, hm => by
      refine ⟨st, rfl, ?_, ?_⟩
      · rw [hm]
        simp [votesSum, flagsSum, statusCalls]
      · intro sid
        simp [lastCall]
  | c :: cs, st, m, hm => by
      rw [runUpdates, update_step_eq st m hm]
      set rec : StepRecord := ⟨c.step_id, c.status, c.votes, c.margin, c.red_flags,
        c.winner, c.now⟩ with hrec
      set m1 : Metrics := ⟨m.total_votes_cast + c.votes, m.red_flags + c.red_flags,
        m.completed_steps + (if c.status = "decided" then 1 else 0),
        m.failed_steps + (if c.status = "failed" then 1 else 0)⟩ with hm1
      set st1 : StateDoc :=
        { st with
          steps := some (stepsInsert (st.steps.getD []) c.step_id rec)
          current_step :=
            if c.status = "decided" then
              some (decidedCount (stepsInsert (st.steps.getD []) c.step_id rec))
            else st.current_step
          metrics := some m1 } with hst1
      obtain ⟨st', hrun, hmet, hlook⟩ := runUpdates_metrics cs st1 m1 rfl
      refine ⟨st', hrun, ?_, ?_⟩
      · rw [hmet]
        have h1 : votesSum (c :: cs) = c.votes + votesSum cs := by
          simp [votesSum]
        have h2 : flagsSum (c :: cs) = c.red_flags + flagsSum cs := by
          simp [flagsSum]
        have h3 : ∀ s, statusCalls s (c :: cs) =
            (if c.status = s then 1 else 0) + statusCalls s cs := by
          intro s
          by_cases hcs : c.status = s <;> simp [statusCalls, List.countP_cons, hcs] <;> omega
        rw [h1, h2, h3, h3, hm1]
        simp only [Option.some.injEq, Metrics.mk.injEq]
        refine ⟨by ring, by ring, ?_, ?_⟩
        · split_ifs <;> push_cast <;> ring
        · split_ifs <;> push_cast <;> ring
      · intro sid
        rw [hlook sid]
        have hst1steps : st1.steps.getD [] = stepsInsert (st.steps.getD []) c.step_id rec := rfl
        rw [hst1steps, stepsLookup_insert]
        have hlast : lastCall (c :: cs) sid =
            (lastCall cs sid).or (if c.step_id = sid then some c else none) := by
          rw [lastCall, lastCall, List.reverse_cons, List.find?_append]
          congr 1
          by_cases hc : c.step_id = sid <;> simp [List.find?, hc]
        rw [hlast]
        cases hlc : lastCall cs sid with
        | some x => simp
        | none =>
            by_cases hc : c.step_id = sid
            · simp [hc, hrec, recordOf]
            · simp [hc, show ¬ sid = c.step_id from fun hh => hc hh.symm]

/-- Claim C5 (code bug): against a session with no persisted state,
`update_step` does not silently proceed — the `or {}` shell has no
`metrics` key and the unconditional `state["metrics"]` access raises
`KeyError` for every status, so nothing is written or returned. -/
theorem c5_bug (step_id status : String) (winner : Option Json)
    (votes margin red_flags : Int) (now : String) :
    update_step none step_id status winner votes margin red_flags now =
      .error "KeyError: metrics" := rfl

/-- Claim C10 (confirmed): `mark_complete` against a session with no
persisted state does not fail; it returns the empty shell carrying only the
terminal status and the completion timestamp — no steps mapping, no metrics,
no total steps. -/
theorem c10_thm (success : Bool) (now : String) :
    mark_complete none success now =
      { emptyShell with
        status := some (if success then "success" else "failed")
        completed_at := some now }
  ∧ (mark_complete none success now).steps = none
  ∧ (mark_complete none success now).metrics = none
  ∧ (mark_complete none success now).total_steps = none
  ∧ (mark_complete none success now).current_step = none :=
  ⟨rfl, rfl, rfl, rfl, rfl⟩

/-- Counterexample for C4 as stated: after `update_step("s1","decided")`
followed by `update_step("s1","failed")` on a freshly initialized session,
the persisted `current_step` is still `1` while no step record has status
`decided` — the overwrite path does not recompute the counter. -/
theorem c4_counterexample :
    ¬ ∀ st : StateDoc,
        runUpdates (initState "s" 5 "task" 3 "t0")
          [⟨"s1", "decided", none, 3, 3, 0, "t1"⟩,
           ⟨"s1", "failed", none, 2, 0, 1, "t2"⟩] = .ok st →
        st.current_step = some (decidedCount (st.steps.getD [])) := by
  intro h
  have hst := h _ rfl
  exact absurd hst (by decide)

/-- Claim C4 (corrected): the invariant `current_step = number of decided
step records` holds after initialization and is preserved by every
`update_step` call except when a `failed`/`voting` call overwrites a record
that is currently `decided`; on traces free of such overwrites it holds
throughout. -/
theorem c4_amended (sid task now : String) (total k : Int) (calls : List UpdateCall)
    (hsafe : safeTrace (initState sid total task k now) calls = true) :
    ∃ st, runUpdates (initState sid total task k now) calls = .ok st
      ∧ st.current_step = some (decidedCount (st.steps.getD [])) :=
  runUpdates_safe calls _ ⟨0, 0, 0, 0⟩ rfl (by simp [initState]) rfl hsafe

/-- Witness for C4: a concrete safe trace (a decided step, a failed fresh
step, and a decided overwrite of a decided step) keeps the invariant. -/
theorem c4_amended_witness :
    ∃ st, runUpdates (initState "s" 5 "task" 3 "t0")
        [⟨"s1", "decided", none, 3, 3, 0, "t1"⟩,
         ⟨"s2", "failed", none, 2, 0, 1, "t2"⟩,
         ⟨"s1", "decided", none, 4, 3, 0, "t3"⟩] = .ok st
      ∧ st.current_step = some (decidedCount (st.steps.getD [])) :=
  c4_amended "s" "task" "t0" 5 3 _ (by decide)

/-- Claim C6 (confirmed): over any initialized session,
`metrics.total_votes_cast` and `metrics.red_flags` are the sums of the
per-call `votes`/`red_flags` arguments over all `update_step` calls ever
made, `completed_steps`/`failed_steps` count exactly the calls with status
`decided`/`failed`, and the step record stored for each step id is the one
written by the last call targetting it (earlier records are overwritten, no
history kept). -/
theorem c6_thm (sid task now : String) (total k : Int) (calls : List UpdateCall) :
    ∃ st, runUpdates (initState sid total task k now) calls = .ok st
      ∧ st.metrics = some ⟨votesSum calls, flagsSum calls,
          (statusCalls "decided" calls : Int), (statusCalls "failed" calls : Int)⟩
      ∧ ∀ stepId, stepsLookup (st.steps.getD []) stepId =
          (lastCall calls stepId).map recordOf := by
  obtain ⟨st, h1, h2, h3⟩ := runUpdates_metrics calls (initState sid total task k now)
    ⟨0, 0, 0, 0⟩ rfl
  refine ⟨st, h1, by simpa using h2, fun stepId => ?_⟩
  have := h3 stepId
  simpa [initState, stepsLookup] using this

/-- Counterexample for C8 as stated: at `p = 1/4` the voted success
probability strictly *decreases* from `k = 1` to `k = 2` (`1/4` down to
`1/10`), so it is not monotonically increasing in `k` on all of `(0,1)`. -/
theorem c8_counterexample :
    per_step_success_probability (1/4) 1 = .ok (1/4)
  ∧ per_step_success_probability (1/4) 2 = .ok (1/10)
  ∧ ¬ ((1/4 : ℚ) ≤ 1/10) := by
  refine ⟨?_, ?_, by norm_num⟩
  · simp only [per_step_success_probability]
    norm_num
  · simp only [per_step_success_probability]
    norm_num [Int.toNat]

/-! ### JSON normalization (C9): key order -/

theorem charsLt_irrefl : ∀ l : List Char, charsLt l l = false
  | [] => rfl
  | a :: as => by
      rw [charsLt]
      simp [Nat.lt_irrefl, charsLt_irrefl as]

theorem charsLt_asymm : ∀ a b : List Char, charsLt a b = true → charsLt b a = false
  | [], [] => by simp [charsLt]
  | [], _ :: _ => fun _ => rfl
  | _ :: _, [] => by simp [charsLt]
  | a :: as, b :: bs => by
      rw [charsLt, charsLt]
      intro h
      by_cases h1 : a.toNat < b.toNat
      · simp [show ¬ b.toNat < a.toNat by omega, show ¬ a.toNat < b.toNat → False by omega]
        omega
      · by_cases h2 : b.toNat < a.toNat
        · simp [h1, h2] at h
        · simp [h1, h2] at h ⊢
          exact charsLt_asymm as bs h

theorem charsLt_trans : ∀ a b c : List Char,
    charsLt a b = true → charsLt b c = true → charsLt a c = true
  | [], b, [] => by
      cases b with
      | nil => simp [charsLt]
      | cons x xs => intro _ h2; simp [charsLt] at h2
  | [], _, _ :: _ => fun _ _ => rfl
  | _ :: _, [], _ => by simp [charsLt]
  | _ :: _, _ :: _, [] => by intro _ h2; simp [charsLt] at h2
  | a :: as, b :: bs, c :: cs => by
      rw [charsLt, charsLt, charsLt]
      intro h1 h2
      by_cases hab : a.toNat < b.toNat <;> by_cases hbc : b.toNat < c.toNat
      · simp [show a.toNat < c.toNat by omega]
      · rw [if_neg hbc] at h2
        by_cases hcb : c.toNat < b.toNat
        · simp [hcb] at h2
        · simp [show a.toNat < c.toNat by omega]
      · rw [if_neg hab] at h1
        by_cases hba : b.toNat < a.toNat
        · simp [hba] at h1
        · simp [show a.toNat < c.toNat by omega]
      · rw [if_neg hab] at h1
        rw [if_neg hbc] at h2
        by_cases hba : b.toNat < a.toNat
        · simp [hba] at h1
        · by_cases hcb : c.toNat < b.toNat
          · simp [hcb] at h2
          · simp [hba, hcb] at h1 h2
            simp [show ¬ a.toNat < c.toNat by omega, show ¬ c.toNat < a.toNat by omega]
            exact charsLt_trans as bs cs h1 h2

theorem charsLt_eq_of_not : ∀ a b : List Char,
    charsLt a b = false → charsLt b a = false → a = b
  | [], [] => fun _ _ => rfl
  | [], _ :: _ => by simp [charsLt]
  | _ :: _, [] => by intro _ h2; simp [charsLt] at h2
  | a :: as, b :: bs => by
      rw [charsLt, charsLt]
      intro h1 h2
      by_cases hab : a.toNat < b.toNat
      · simp [hab] at h1
      · by_cases hba : b.toNat < a.toNat
        · simp [hba] at h2
        · simp [hab, hba] at h1 h2
          have hc : a = b := by
            have : a.toNat = b.toNat := by omega
            have := congrArg Char.ofNat this
            rwa [Char.ofNat_toNat, Char.ofNat_toNat] at this
          rw [hc, charsLt_eq_of_not as bs h1 h2]

theorem strLt_irrefl (a : String) : strLt a a = false := charsLt_irrefl a.data

theorem strLt_asymm {a b : String} (h : strLt a b = true) : strLt b a = false :=
  charsLt_asymm a.data b.data h

theorem strLt_trans {a b c : String} (h1 : strLt a b = true) (h2 : strLt b c = true) :
    strLt a c = true := charsLt_trans a.data b.data c.data h1 h2

theorem strLt_eq_of_not {a b : String} (h1 : strLt a b = false)
    (h2 : strLt b a = false) : a = b := by
  have hd : a.data = b.data := charsLt_eq_of_not a.data b.data h1 h2
  cases a
  cases b
  exact congrArg String.mk hd

theorem strLt_ne {a b : String} (h : strLt a b = true) : ¬ a = b := by
  intro heq
  rw [heq, strLt_irrefl] at h
  cases h

theorem canonO_values : ∀ fs, canonO fs = true → ∀ kv ∈ fs, canonV kv.2 = true
  | [], _, kv, hm => absurd hm (List.not_mem_nil kv)
  | (k, v) :: fs, h, kv, hm => by
      rw [canonO, Bool.and_eq_true, Bool.and_eq_true] at h
      rcases List.mem_cons.mp hm with rfl | hm'
      · exact h.1.1
      · exact canonO_values fs h.2 kv hm'

theorem canonO_head_lt_all : ∀ (k : String) (fs : List (String × Json)),
    oBound k fs = true → canonO fs = true → ∀ kv ∈ fs, strLt k kv.1 = true
  | _, [], _, _, kv, hm => absurd hm (List.not_mem_nil kv)
  | k, (k', v') :: fs', hb, hc, kv, hm => by
      rw [oBound] at hb
      rw [canonO, Bool.and_eq_true, Bool.and_eq_true] at hc
      rcases List.mem_cons.mp hm with rfl | hm'
      · exact hb
      · exact strLt_trans hb (canonO_head_lt_all k' fs' hc.1.2 hc.2 kv hm')

theorem objInsert_oBound (k0 k : String) (v : Json) :
    ∀ t, strLt k0 k = true → oBound k0 t = true → oBound k0 (objInsert k v t) = true
  | [], hk, _ => by
      rw [objInsert, oBound]
      exact hk
  | (a, b) :: t', hk, hb => by
      rw [oBound] at hb
      rw [objInsert]
      by_cases h1 : strLt k a = true
      · rw [if_pos h1, oBound]
        exact hk
      · rw [if_neg h1]
        by_cases h2 : k = a
        · rw [if_pos h2, oBound]
          exact hk
        · rw [if_neg h2, oBound]
          exact hb

theorem objInsert_canonO (k : String) (v : Json) :
    ∀ fs, canonV v = true → canonO fs = true → canonO (objInsert k v fs) = true
  | [], hv, _ => by
      rw [objInsert, canonO, oBound, canonO]
      simp [hv]
  | (k', v') :: t, hv, hc => by
      rw [canonO, Bool.and_eq_true, Bool.and_eq_true] at hc
      rw [objInsert]
      by_cases h1 : strLt k k' = true
      · rw [if_pos h1, canonO, canonO]
        simp only [Bool.and_eq_true]
        exact ⟨⟨hv, by rw [oBound]; exact h1⟩, ⟨hc.1.1, hc.1.2⟩, hc.2⟩
      · rw [if_neg h1]
        by_cases h2 : k = k'
        · rw [if_pos h2, canonO, h2]
          simp [hv, hc.1.2, hc.2]
        · rw [if_neg h2, canonO]
          have hlt : strLt k' k = true := by
            cases h3 : strLt k' k with
            | true => rfl
            | false =>
                exact absurd (strLt_eq_of_not (Bool.eq_false_iff.mpr h1) h3) h2
          simp [hc.1.1, objInsert_oBound k' k v t hlt hc.1.2,
            objInsert_canonO k v t hv hc.2]

theorem objInsert_append (k : String) (v : Json) :
    ∀ acc, (∀ kv ∈ acc, strLt kv.1 k = true) → objInsert k v acc = acc ++ [(k, v)]
  | [], _ => rfl
  | (k', v') :: t, h => by
      have hk' : strLt k' k = true := h (k', v') (List.mem_cons_self _ _)
      rw [objInsert, if_neg (by simp [strLt_asymm hk']),
        if_neg (fun he => strLt_ne hk' he.symm), objInsert_append k v t
          (fun kv hm => h kv (List.mem_cons_of_mem _ hm))]
      rfl

theorem objOfList_go : ∀ (fs acc : List (String × Json)), canonO fs = true →
    (∀ kv ∈ acc, ∀ kv' ∈ fs, strLt kv.1 kv'.1 = true) →
    fs.foldl (fun m kv => objInsert kv.1 kv.2 m) acc = acc ++ fs
  | [], acc, _, _ => by simp
  | (k, v) :: fs', acc, hc, hlt => by
      rw [canonO, Bool.and_eq_true, Bool.and_eq_true] at hc
      rw [List.foldl_cons]
      have hstep : objInsert k v acc = acc ++ [(k, v)] :=
        objInsert_append k v acc fun kv hm => hlt kv hm (k, v) (List.mem_cons_self _ _)
      rw [hstep, objOfList_go fs' (acc ++ [(k, v)]) hc.2 ?_, List.append_assoc]
      · rfl
      · intro kv hm kv' hm'
        rcases List.mem_append.mp hm with hacc | hkv
        · exact hlt kv hacc kv' (List.mem_cons_of_mem _ hm')
        · rcases List.mem_singleton.mp hkv with rfl
          exact canonO_head_lt_all k fs' hc.1.2 hc.2 kv' hm'

theorem objOfList_canonical (fs : List (String × Json)) (h : canonO fs = true) :
    objOfList fs = fs := by
  rw [objOfList, objOfList_go fs [] h (by simp)]
  rfl

theorem objOfList_go_canonO : ∀ (ms acc : List (String × Json)), canonO acc = true →
    (∀ kv ∈ ms, canonV kv.2 = true) →
    canonO (ms.foldl (fun m kv => objInsert kv.1 kv.2 m) acc) = true
  | [], acc, hacc, _ => hacc
  | (k, v) :: ms', acc, hacc, hv => by
      rw [List.foldl_cons]
      exact objOfList_go_canonO ms' _
        (objInsert_canonO k v acc (hv (k, v) (List.mem_cons_self _ _)) hacc)
        (fun kv hm => hv kv (List.mem_cons_of_mem _ hm))

theorem objOfList_canonO (ms : List (String × Json))
    (h : ∀ kv ∈ ms, canonV kv.2 = true) : canonO (objOfList ms) = true :=
  objOfList_go_canonO ms [] rfl h

/-! ### JSON normalization (C9): strings and digits -/

theorem strMk_data (s : String) : String.mk s.data = s := rfl

theorem parseStrBody_esc (c : Char) (rest : List Char) :
    parseStrBody (escChar c ++ rest) =
      (parseStrBody rest).map fun p => (c :: p.1, p.2) := by
  rw [escChar]
  by_cases h1 : c = '"'
  · subst h1
    rw [if_pos rfl]
    rfl
  · rw [if_neg h1]
    by_cases h2 : c = '\\'
    · subst h2
      rw [if_pos rfl]
      rfl
    · rw [if_neg h2]
      by_cases h3 : c = '\n'
      · subst h3
        rw [if_pos rfl]
        rfl
      · rw [if_neg h3]
        by_cases h4 : c = '\t'
        · subst h4
          rw [if_pos rfl]
          rfl
        · rw [if_neg h4]
          by_cases h5 : c = '\r'
          · subst h5
            rw [if_pos rfl]
            rfl
          · rw [if_neg h5, List.singleton_append]
            rw [parseStrBody.eq_def]
            dsimp only
            rw [if_neg h1, if_neg h2]

theorem escList_rt : ∀ (s rest : List Char),
    parseStrBody (escList s ++ '"' :: rest) = some (s, rest)
  | [], rest => by
      rw [escList, List.nil_append]
      rw [parseStrBody.eq_def]
      dsimp only
      rw [if_pos rfl]
  | c :: s', rest => by
      rw [escList, List.append_assoc, parseStrBody_esc, escList_rt s' rest]
      rfl

theorem strLit_rt (s : String) (rest : List Char) :
    parseStrBody (s.data.foldr (fun c acc => escChar c ++ acc) [] ++ '"' :: rest) =
      some (s.data, rest) := by
  have h : s.data.foldr (fun c acc => escChar c ++ acc) [] = escList s.data := by
    induction s.data with
    | nil => rfl
    | cons c cs ih => rw [List.foldr_cons, ih, escList]
  rw [h, escList_rt]

theorem digChar_spec (d : Nat) (h : d < 10) :
    (digChar d).toNat = 48 + d ∧ isDig (digChar d) = true := by
  interval_cases d <;> exact ⟨by decide, by decide⟩

theorem natChars_zero : ∀ fuel, natChars fuel 0 = []
  | 0 => rfl
  | _ + 1 => rfl

theorem natChars_digits : ∀ fuel n, ∀ c ∈ natChars fuel n, isDig c = true
  | 0, _, c, hm => absurd hm (List.not_mem_nil c)
  | _ + 1, 0, c, hm => absurd hm (List.not_mem_nil c)
  | fuel + 1, n + 1, c, hm => by
      rw [natChars] at hm
      rcases List.mem_append.mp hm with hm' | hm'
      · exact natChars_digits fuel ((n + 1) / 10) c hm'
      · rcases List.mem_singleton.mp hm' with rfl
        exact (digChar_spec _ (Nat.mod_lt _ (by omega))).2

theorem digsVal_append_one (l : List Char) (c : Char) :
    digsVal (l ++ [c]) = 10 * digsVal l + (c.toNat - 48) := by
  rw [digsVal, List.foldl_append]
  rfl

theorem natChars_val : ∀ fuel n, n ≤ fuel → digsVal (natChars fuel n) = n
  | 0, 0, _ => rfl
  | 0, _ + 1, h => absurd h (by omega)
  | _ + 1, 0, _ => rfl
  | fuel + 1, n + 1, h => by
      rw [natChars, digsVal_append_one,
        natChars_val fuel ((n + 1) / 10) (by
          have := Nat.div_lt_self (show 0 < n + 1 by omega) (show 1 < 10 by omega)
          omega),
        (digChar_spec _ (Nat.mod_lt _ (by omega))).1]
      omega

theorem natRepr_digits (n : Nat) : ∀ c ∈ natRepr n, isDig c = true := by
  rw [natRepr]
  split
  · intro c hm
    rcases List.mem_singleton.mp hm with rfl
    decide
  · exact natChars_digits n n

theorem natRepr_val (n : Nat) : digsVal (natRepr n) = n := by
  rw [natRepr]
  split
  · rename_i h
    rw [h]
    rfl
  · exact natChars_val n n (Nat.le_refl n)

theorem natRepr_head (n : Nat) : ∃ c t, natRepr n = c :: t ∧ isDig c = true := by
  cases hr : natRepr n with
  | nil =>
      exfalso
      rw [natRepr] at hr
      by_cases h : n = 0
      · rw [if_pos h] at hr
        cases hr
      · rw [if_neg h] at hr
        obtain ⟨m, rfl⟩ := Nat.exists_eq_succ_of_ne_zero h
        rw [natChars] at hr
        exact absurd hr (by simp)
  | cons c t =>
      refine ⟨c, t, rfl, natRepr_digits n c ?_⟩
      rw [hr]
      exact List.mem_cons_self c t

theorem takeDigs_stop (cs : List Char) (h : noDigitHead cs = true) :
    takeDigs cs = ([], cs) := by
  cases cs with
  | nil => rfl
  | cons c t =>
      rw [noDigitHead] at h
      rw [takeDigs, if_neg (by simpa using h)]

theorem takeDigs_run : ∀ (ds rest : List Char), (∀ c ∈ ds, isDig c = true) →
    noDigitHead rest = true → takeDigs (ds ++ rest) = (ds, rest)
  | [], rest, _, hr => by
      rw [List.nil_append]
      exact takeDigs_stop rest hr
  | d :: ds', rest, hd, hr => by
      rw [List.cons_append, takeDigs, if_pos (hd d (List.mem_cons_self d ds')),
        takeDigs_run ds' rest (fun c hm => hd c (List.mem_cons_of_mem d hm)) hr]

theorem parseIntFrom_cons (c : Char) (r : List Char) :
    parseIntFrom (c :: r) =
      if c = '-' then
        if (takeDigs r).1 = [] then none
        else some (-(digsVal (takeDigs r).1 : Int), (takeDigs r).2)
      else
        if (takeDigs (c :: r)).1 = [] then none
        else some ((digsVal (takeDigs (c :: r)).1 : Int), (takeDigs (c :: r)).2) := rfl

theorem parseIntFrom_rt (i : Int) (rest : List Char) (h : noDigitHead rest = true) :
    parseIntFrom (intRepr i ++ rest) = some (i, rest) := by
  by_cases hneg : i < 0
  · rw [intRepr, if_pos hneg, List.cons_append, List.nil_append, List.cons_append]
    rw [parseIntFrom_cons]
    rw [if_pos rfl, takeDigs_run (natRepr i.natAbs) rest (natRepr_digits _) h]
    obtain ⟨c, t, hrn, -⟩ := natRepr_head i.natAbs
    rw [if_neg (by rw [hrn]; simp), natRepr_val]
    have : (i.natAbs : Int) = -i := by omega
    rw [this, neg_neg]
  · obtain ⟨c, t, hrn, hc⟩ := natRepr_head i.natAbs
    have hcm : c ≠ '-' := by
      intro hcontra
      rw [hcontra] at hc
      exact absurd hc (by decide)
    rw [intRepr, if_neg hneg, List.nil_append, hrn, List.cons_append]
    rw [parseIntFrom_cons]
    rw [if_neg hcm, ← List.cons_append, ← hrn,
      takeDigs_run (natRepr i.natAbs) rest (natRepr_digits _) h]
    rw [if_neg (by rw [hrn]; simp), natRepr_val]
    have : (i.natAbs : Int) = i := by omega
    rw [this]

theorem wsSkip_of_head (c : Char) (l : List Char) (h : isWsChar c = false) :
    wsSkip (c :: l) = c :: l := by
  rw [wsSkip, h]
  rfl

/-! ### JSON normalization (C9): parsed values are canonical -/

theorem parseVal_succ (fuel : Nat) (cs : List Char) :
    parseVal (fuel + 1) cs =
      (match wsSkip cs with
      | 'n' :: 'u' :: 'l' :: 'l' :: r => some (.null, r)
      | 't' :: 'r' :: 'u' :: 'e' :: r => some (.bool true, r)
      | 'f' :: 'a' :: 'l' :: 's' :: 'e' :: r => some (.bool false, r)
      | '"' :: r => (parseStrBody r).map fun p => (.str (String.mk p.1), p.2)
      | '[' :: r =>
          match wsSkip r with
          | ']' :: r2 => some (.arr [], r2)
          | r2 => (parseElems fuel r2).map fun p => (.arr p.1, p.2)
      | c :: r =>
          if c = lbr then
            match wsSkip r with
            | c2 :: r2 =>
                if c2 = rbr then some (.obj [], r2)
                else (parseFields fuel (c2 :: r2)).map fun p => (.obj (objOfList p.1), p.2)
            | [] => none
          else if c = '-' || isDig c then
            (parseIntFrom (c :: r)).map fun p => (.num p.1, p.2)
          else none
      | [] => none) := rfl

theorem parseElems_succ (fuel : Nat) (cs : List Char) :
    parseElems (fuel + 1) cs =
      (match parseVal fuel cs with
      | none => none
      | some (v, r) =>
          match wsSkip r with
          | ',' :: r2 => (parseElems fuel r2).map fun p => (v :: p.1, p.2)
          | ']' :: r2 => some ([v], r2)
          | _ => none) := rfl

theorem parseFields_succ (fuel : Nat) (cs : List Char) :
    parseFields (fuel + 1) cs =
      (match wsSkip cs with
      | '"' :: r =>
          match parseStrBody r with
          | none => none
          | some (kcs, r1) =>
              match wsSkip r1 with
              | ':' :: r2 =>
                  match parseVal fuel r2 with
                  | none => none
                  | some (v, r3) =>
                      match wsSkip r3 with
                      | ',' :: r4 => (parseFields fuel r4).map fun p =>
                          ((String.mk kcs, v) :: p.1, p.2)
                      | c :: r4 =>
                          if c = rbr then some ([(String.mk kcs, v)], r4) else none
                      | [] => none
              | _ => none
      | _ => none) := rfl

theorem parse_canon : ∀ fuel : Nat,
    (∀ cs v r, parseVal fuel cs = some (v, r) → canonV v = true)
  ∧ (∀ cs vs r, parseElems fuel cs = some (vs, r) → canonL vs = true)
  ∧ (∀ cs ms r, parseFields fuel cs = some (ms, r) → ∀ kv ∈ ms, canonV kv.2 = true)
  | 0 => by
      refine ⟨?_, ?_, ?_⟩ <;> intro cs x r h <;> exact Option.noConfusion h
  | fuel + 1 => by
      obtain ⟨ihv, ihe, ihf⟩ := parse_canon fuel
      refine ⟨?_, ?_, ?_⟩
      · intro cs v r h
        rw [parseVal_succ] at h
        split at h
        · simp only [Option.some.injEq, Prod.mk.injEq] at h
          rw [← h.1]
          rfl
        · simp only [Option.some.injEq, Prod.mk.injEq] at h
          rw [← h.1]
          rfl
        · simp only [Option.some.injEq, Prod.mk.injEq] at h
          rw [← h.1]
          rfl
        · obtain ⟨p, -, hp⟩ := Option.map_eq_some'.mp h
          simp only [Prod.mk.injEq] at hp
          rw [← hp.1]
          rfl
        · split at h
          · simp only [Option.some.injEq, Prod.mk.injEq] at h
            rw [← h.1]
            rfl
          · obtain ⟨p, hpe, hp⟩ := Option.map_eq_some'.mp h
            simp only [Prod.mk.injEq] at hp
            rw [← hp.1]
            exact ihe _ _ _ hpe
        · split at h
          · split at h
            · split at h
              · simp only [Option.some.injEq, Prod.mk.injEq] at h
                rw [← h.1]
                rfl
              · obtain ⟨p, hpf, hp⟩ := Option.map_eq_some'.mp h
                simp only [Prod.mk.injEq] at hp
                rw [← hp.1]
                exact objOfList_canonO p.1 (ihf _ _ _ hpf)
            · exact Option.noConfusion h
          · split at h
            · obtain ⟨p, -, hp⟩ := Option.map_eq_some'.mp h
              simp only [Prod.mk.injEq] at hp
              rw [← hp.1]
              rfl
            · exact Option.noConfusion h
        · exact Option.noConfusion h
      · intro cs vs r h
        rw [parseElems_succ] at h
        split at h
        · exact Option.noConfusion h
        · rename_i v r1 hv
          split at h
          · obtain ⟨p, hpe, hp⟩ := Option.map_eq_some'.mp h
            simp only [Prod.mk.injEq] at hp
            rw [← hp.1, canonL, Bool.and_eq_true]
            exact ⟨ihv _ _ _ hv, ihe _ _ _ hpe⟩
          · simp only [Option.some.injEq, Prod.mk.injEq] at h
            rw [← h.1, canonL, Bool.and_eq_true]
            exact ⟨ihv _ _ _ hv, rfl⟩
          · exact Option.noConfusion h
      · intro cs ms r h
        rw [parseFields_succ] at h
        split at h
        · split at h
          · exact Option.noConfusion h
          · split at h
            · split at h
              · exact Option.noConfusion h
              · rename_i v r3 hv
                split at h
                · obtain ⟨p, hpf, hp⟩ := Option.map_eq_some'.mp h
                  simp only [Prod.mk.injEq] at hp
                  rw [← hp.1]
                  intro kv hm
                  rcases List.mem_cons.mp hm with rfl | hm'
                  · exact ihv _ _ _ hv
                  · exact ihf _ _ _ hpf kv hm'
                · split at h
                  · simp only [Option.some.injEq, Prod.mk.injEq] at h
                    rw [← h.1]
                    intro kv hm
                    rcases List.mem_cons.mp hm with rfl | hm'
                    · exact ihv _ _ _ hv
                    · exact absurd hm' (List.not_mem_nil kv)
                  · exact Option.noConfusion h
                · exact Option.noConfusion h
            · exact Option.noConfusion h
        · exact Option.noConfusion h

theorem jsonParse_canon (s : String) (v : Json) (h : jsonParse s = some v) :
    canonV v = true := by
  rw [jsonParse] at h
  split at h
  · rename_i w p hp
    split at h
    · rw [← Option.some.inj h]
      exact (parse_canon _).1 _ w p hp
    · exact Option.noConfusion h
  · exact Option.noConfusion h

/-! ### JSON normalization (C9): the dump/parse round trip -/

theorem isDig_not_ws (c : Char) (h : isDig c = true) : isWsChar c = false := by
  rw [isWsChar]
  by_cases h1 : c = ' '
  · rw [h1] at h
    exact absurd h (by decide)
  · by_cases h2 : c = '\n'
    · rw [h2] at h
      exact absurd h (by decide)
    · by_cases h3 : c = '\t'
      · rw [h3] at h
        exact absurd h (by decide)
      · by_cases h4 : c = '\r'
        · rw [h4] at h
          exact absurd h (by decide)
        · simp [h1, h2, h3, h4]

theorem isDig_ne_of (c d : Char) (h : isDig c = true) (hd : isDig d = false) :
    c ≠ d := by
  intro hc
  rw [hc, hd] at h
  cases h

theorem dumpVal_head (v : Json) :
    ∃ c t, dumpVal v = c :: t ∧ isWsChar c = false ∧ c ≠ ']' := by
  cases v with
  | null => exact ⟨'n', _, rfl, by decide, by decide⟩
  | bool b =>
      cases b with
      | true => exact ⟨'t', _, rfl, by decide, by decide⟩
      | false => exact ⟨'f', _, rfl, by decide, by decide⟩
  | num i =>
      by_cases hneg : i < 0
      · refine ⟨'-', natRepr i.natAbs, ?_, by decide, by decide⟩
        show intRepr i = _
        rw [intRepr, if_pos hneg]
        rfl
      · obtain ⟨c, t, hrn, hc⟩ := natRepr_head i.natAbs
        refine ⟨c, t, ?_, isDig_not_ws c hc, isDig_ne_of c ']' hc (by decide)⟩
        show intRepr i = _
        rw [intRepr, if_neg hneg, List.nil_append, hrn]
  | str s => exact ⟨'"', _, rfl, by decide, by decide⟩
  | arr es => exact ⟨'[', _, rfl, by decide, by decide⟩
  | obj fs => exact ⟨lbr, _, rfl, by decide, by decide⟩

theorem dumpElemsTail_cons (x : Json) (xs : List Json) :
    dumpElemsTail (x :: xs) = ',' :: dumpElems (x :: xs) := rfl

theorem dumpFieldsTail_cons (k : String) (v : Json) (fs : List (String × Json)) :
    dumpFieldsTail ((k, v) :: fs) = ',' :: dumpFields ((k, v) :: fs) := rfl

theorem parseVal_num_branch (f : Nat) (c : Char) (t : List Char)
    (hws : isWsChar c = false) (h1 : c ≠ 'n') (h2 : c ≠ 't') (h3 : c ≠ 'f')
    (h4 : c ≠ '"') (h5 : c ≠ '[') (h6 : c ≠ lbr)
    (h7 : (c = '-' || isDig c) = true) :
    parseVal (f + 1) (c :: t) =
      (parseIntFrom (c :: t)).map fun p => (Json.num p.1, p.2) := by
  rw [parseVal_succ, wsSkip_of_head c t hws]
  split
  · rename_i heq
    injection heq with hc
    exact absurd hc h1
  · rename_i heq
    injection heq with hc
    exact absurd hc h2
  · rename_i heq
    injection heq with hc
    exact absurd hc h3
  · rename_i heq
    injection heq with hc
    exact absurd hc h4
  · rename_i heq
    injection heq with hc
    exact absurd hc h5
  · rename_i c' r' heq
    injection heq with hc hr
    subst hc
    subst hr
    rw [if_neg h6, if_pos h7]
  · rename_i heq
    exact List.noConfusion heq

theorem parseVal_arr_branch (f : Nat) (r : List Char) (c : Char) (t : List Char)
    (hw : wsSkip r = c :: t) (hne : c ≠ ']') :
    parseVal (f + 1) ('[' :: r) =
      (parseElems f (c :: t)).map fun p => (Json.arr p.1, p.2) := by
  rw [parseVal_succ]
  show (match wsSkip r with
    | ']' :: r2 => some (Json.arr [], r2)
    | r2 => (parseElems f r2).map
        fun (p : List Json × List Char) => (Json.arr p.1, p.2)) = _
  rw [hw]
  split
  · rename_i r2 heq
    injection heq with hc
    exact absurd hc hne
  · rfl

mutual

theorem rt_val : ∀ (v : Json) (fuel : Nat) (rest : List Char),
    canonV v = true → (dumpVal v).length < fuel → noDigitHead rest = true →
    parseVal fuel (dumpVal v ++ rest) = some (v, rest)
  | .null, fuel, rest, _, hf, _ => by
      cases fuel with
      | zero => exact absurd hf (Nat.not_lt_zero _)
      | succ f => rfl
  | .bool true, fuel, rest, _, hf, _ => by
      cases fuel with
      | zero => exact absurd hf (Nat.not_lt_zero _)
      | succ f => rfl
  | .bool false, fuel, rest, _, hf, _ => by
      cases fuel with
      | zero => exact absurd hf (Nat.not_lt_zero _)
      | succ f => rfl
  | .num i, fuel, rest, _, hf, hrest => by
      cases fuel with
      | zero => exact absurd hf (Nat.not_lt_zero _)
      | succ f =>
          by_cases hneg : i < 0
          · have hshape : dumpVal (.num i) ++ rest = '-' :: (natRepr i.natAbs ++ rest) := by
              rw [show dumpVal (.num i) = intRepr i from rfl, intRepr, if_pos hneg]
              simp
            have hp := parseIntFrom_rt i rest hrest
            rw [show intRepr i ++ rest = '-' :: (natRepr i.natAbs ++ rest) from by
              rw [intRepr, if_pos hneg]; simp] at hp
            rw [hshape, parseVal_num_branch f '-' _ (by decide) (by decide) (by decide)
              (by decide) (by decide) (by decide) (by decide) (by decide), hp]
            rfl
          · obtain ⟨c, t, hrn, hc⟩ := natRepr_head i.natAbs
            have hshape : dumpVal (.num i) ++ rest = c :: (t ++ rest) := by
              rw [show dumpVal (.num i) = intRepr i from rfl, intRepr, if_neg hneg,
                List.nil_append, hrn]
              rfl
            have hp := parseIntFrom_rt i rest hrest
            rw [show intRepr i ++ rest = c :: (t ++ rest) from by
              rw [intRepr, if_neg hneg, List.nil_append, hrn]; rfl] at hp
            rw [hshape, parseVal_num_branch f c _ (isDig_not_ws c hc)
              (isDig_ne_of c 'n' hc (by decide)) (isDig_ne_of c 't' hc (by decide))
              (isDig_ne_of c 'f' hc (by decide)) (isDig_ne_of c '"' hc (by decide))
              (isDig_ne_of c '[' hc (by decide)) (isDig_ne_of c lbr hc (by decide))
              (by rw [hc]; simp), hp]
            rfl
  | .str s, fuel, rest, _, hf, _ => by
      cases fuel with
      | zero => exact absurd hf (Nat.not_lt_zero _)
      | succ f =>
          have hshape : dumpVal (.str s) ++ rest =
              '"' :: (escList s.data ++ '"' :: rest) := by
            show strLit s ++ rest = _
            rw [strLit]
            simp
          rw [hshape]
          show (parseStrBody (escList s.data ++ '"' :: rest)).map
            (fun p => (Json.str (String.mk p.1), p.2)) = _
          rw [escList_rt]
          rfl
  | .arr [], fuel, rest, _, hf, _ => by
      cases fuel with
      | zero => exact absurd hf (Nat.not_lt_zero _)
      | succ f => rfl
  | .arr (e :: es), fuel, rest, hC, hf, _ => by
      cases fuel with
      | zero => exact absurd hf (Nat.not_lt_zero _)
      | succ f =>
          obtain ⟨c, t, hd, hws, hbr⟩ := dumpVal_head e
          have hshape : dumpVal (.arr (e :: es)) ++ rest =
              '[' :: (dumpElems (e :: es) ++ (']' :: rest)) := by
            show ('[' :: (dumpElems (e :: es) ++ [']'])) ++ rest = _
            simp
          have hw : wsSkip (dumpElems (e :: es) ++ (']' :: rest)) =
              c :: (t ++ dumpElemsTail es ++ (']' :: rest)) := by
            rw [show dumpElems (e :: es) = dumpVal e ++ dumpElemsTail es from rfl, hd]
            simp only [List.cons_append, List.append_assoc]
            exact wsSkip_of_head c _ hws
          have hlen : (dumpElems (e :: es)).length + 1 < f := by
            have : (dumpVal (.arr (e :: es))).length =
                (dumpElems (e :: es)).length + 2 := by
              show ('[' :: (dumpElems (e :: es) ++ [']'])).length = _
              simp
            omega
          have hrec := rt_elems e es f rest hC hlen
          have hback : c :: (t ++ dumpElemsTail es ++ (']' :: rest)) =
              dumpElems (e :: es) ++ (']' :: rest) := by
            rw [show dumpElems (e :: es) = dumpVal e ++ dumpElemsTail es from rfl, hd]
            simp
          rw [hshape, parseVal_arr_branch f _ c _ hw hbr, hback, hrec]
          rfl
  | .obj [], fuel, rest, _, hf, _ => by
      cases fuel with
      | zero => exact absurd hf (Nat.not_lt_zero _)
      | succ f => rfl
  | .obj ((k, v) :: fs), fuel, rest, hC, hf, _ => by
      cases fuel with
      | zero => exact absurd hf (Nat.not_lt_zero _)
      | succ f =>
          have hCo : canonO ((k, v) :: fs) = true := hC
          have hshape : dumpVal (.obj ((k, v) :: fs)) ++ rest =
              lbr :: (dumpFields ((k, v) :: fs) ++ (rbr :: rest)) := by
            show (lbr :: (dumpFields ((k, v) :: fs) ++ [rbr])) ++ rest = _
            simp
          have hlen : (dumpFields ((k, v) :: fs)).length + 1 < f := by
            have : (dumpVal (.obj ((k, v) :: fs))).length =
                (dumpFields ((k, v) :: fs)).length + 2 := by
              show (lbr :: (dumpFields ((k, v) :: fs) ++ [rbr])).length = _
              simp
            omega
          have hrec := rt_fields (k, v) fs f rest
            (fun x hx => canonO_values _ hCo x hx) hlen
          have hkey : dumpFields ((k, v) :: fs) ++ (rbr :: rest) =
              '"' :: (escList k.data ++ '"' :: (':' ::
                (dumpVal v ++ dumpFieldsTail fs ++ (rbr :: rest)))) := by
            show (strLit k ++ ':' :: (dumpVal v ++ dumpFieldsTail fs)) ++ _ = _
            rw [strLit]
            simp
          rw [hshape]
          show (match wsSkip (dumpFields ((k, v) :: fs) ++ (rbr :: rest)) with
            | c2 :: r2 =>
                if c2 = rbr then some (Json.obj [], r2)
                else (parseFields f (c2 :: r2)).map
                  fun (p : List (String × Json) × List Char) =>
                    (Json.obj (objOfList p.1), p.2)
            | [] => none) = _
          rw [hkey]
          show (parseFields f ('"' :: (escList k.data ++ '"' :: (':' ::
              (dumpVal v ++ dumpFieldsTail fs ++ (rbr :: rest)))))).map
            (fun (p : List (String × Json) × List Char) =>
              (Json.obj (objOfList p.1), p.2)) = _
          rw [← hkey, hrec, Option.map_some', objOfList_canonical _ hCo]
  termination_by v _ _ _ _ _ => sizeOf v

theorem rt_elems : ∀ (e : Json) (es : List Json) (fuel : Nat) (rest : List Char),
    canonL (e :: es) = true → (dumpElems (e :: es)).length + 1 < fuel →
    parseElems fuel (dumpElems (e :: es) ++ (']' :: rest)) = some (e :: es, rest)
  | e, [], fuel, rest, hC, hf => by
      cases fuel with
      | zero => exact absurd hf (Nat.not_lt_zero _)
      | succ f =>
          rw [canonL, Bool.and_eq_true] at hC
          have he : dumpElems [e] = dumpVal e := by
            show dumpVal e ++ dumpElemsTail [] = _
            rw [show dumpElemsTail [] = ([] : List Char) from rfl, List.append_nil]
          have hlen : (dumpVal e).length < f := by
            rw [he] at hf
            omega
          rw [parseElems_succ, he, rt_val e f (']' :: rest) hC.1 hlen rfl]
          rfl
  | e, x :: xs, fuel, rest, hC, hf => by
      cases fuel with
      | zero => exact absurd hf (Nat.not_lt_zero _)
      | succ f =>
          rw [canonL, Bool.and_eq_true] at hC
          have he : dumpElems (e :: x :: xs) = dumpVal e ++ ',' :: dumpElems (x :: xs) := by
            show dumpVal e ++ dumpElemsTail (x :: xs) = _
            rw [dumpElemsTail_cons]
          have hlen1 : (dumpVal e).length < f := by
            rw [he] at hf
            simp only [List.length_append, List.length_cons] at hf
            omega
          have hlen2 : (dumpElems (x :: xs)).length + 1 < f := by
            rw [he] at hf
            simp only [List.length_append, List.length_cons] at hf
            omega
          have hshape : dumpElems (e :: x :: xs) ++ (']' :: rest) =
              dumpVal e ++ (',' :: (dumpElems (x :: xs) ++ (']' :: rest))) := by
            rw [he]
            simp
          rw [parseElems_succ, hshape,
            rt_val e f (',' :: (dumpElems (x :: xs) ++ (']' :: rest))) hC.1 hlen1 rfl]
          show (parseElems f (dumpElems (x :: xs) ++ (']' :: rest))).map
            (fun (p : List Json × List Char) => (e :: p.1, p.2)) = _
          rw [rt_elems x xs f rest hC.2 hlen2]
          rfl
  termination_by e es _ _ _ _ => sizeOf e + sizeOf es

theorem rt_fields : ∀ (kv : String × Json) (fs : List (String × Json)) (fuel : Nat)
    (rest : List Char),
    (∀ x ∈ kv :: fs, canonV x.2 = true) →
    (dumpFields (kv :: fs)).length + 1 < fuel →
    parseFields fuel (dumpFields (kv :: fs) ++ (rbr :: rest)) = some (kv :: fs, rest)
  | (k, v), [], fuel, rest, hC, hf => by
      cases fuel with
      | zero => exact absurd hf (Nat.not_lt_zero _)
      | succ f =>
          have hcv : canonV v = true := hC (k, v) (List.mem_cons_self _ _)
          have hkey : dumpFields [(k, v)] ++ (rbr :: rest) =
              '"' :: (escList k.data ++ '"' :: (':' :: (dumpVal v ++ (rbr :: rest)))) := by
            show (strLit k ++ ':' :: (dumpVal v ++ dumpFieldsTail [])) ++ _ = _
            rw [strLit, show dumpFieldsTail [] = ([] : List Char) from rfl, List.append_nil]
            simp
          have hlen : (dumpVal v).length < f := by
            have hdf : (dumpFields [(k, v)]).length =
                (strLit k).length + 1 + (dumpVal v).length := by
              show (strLit k ++ ':' :: (dumpVal v ++ dumpFieldsTail [])).length = _
              rw [show dumpFieldsTail [] = ([] : List Char) from rfl, List.append_nil]
              simp
              omega
            omega
          rw [parseFields_succ, hkey]
          show (match parseStrBody (escList k.data ++ '"' ::
              (':' :: (dumpVal v ++ (rbr :: rest)))) with
            | none => none
            | some (kcs, r1) =>
                match wsSkip r1 with
                | ':' :: r2 =>
                    match parseVal f r2 with
                    | none => none
                    | some (w, r3) =>
                        match wsSkip r3 with
                        | ',' :: r4 => (parseFields f r4).map
                            fun (p : List (String × Json) × List Char) =>
                              ((String.mk kcs, w) :: p.1, p.2)
                        | c :: r4 =>
                            if c = rbr then some ([(String.mk kcs, w)], r4) else none
                        | [] => none
                | _ => none) = _
          rw [escList_rt]
          show (match parseVal f (dumpVal v ++ (rbr :: rest)) with
            | none => none
            | some (w, r3) =>
                match wsSkip r3 with
                | ',' :: r4 => (parseFields f r4).map
                    fun (p : List (String × Json) × List Char) =>
                      ((String.mk k.data, w) :: p.1, p.2)
                | c :: r4 =>
                    if c = rbr then some ([(String.mk k.data, w)], r4) else none
                | [] => none) = _
          rw [rt_val v f (rbr :: rest) hcv hlen rfl]
          show (if rbr = rbr then some ([(String.mk k.data, v)], rest) else none) = _
          rw [if_pos rfl, strMk_data]
  | (k, v), (k2, v2) :: fs', fuel, rest, hC, hf => by
      cases fuel with
      | zero => exact absurd hf (Nat.not_lt_zero _)
      | succ f =>
          have hcv : canonV v = true := hC (k, v) (List.mem_cons_self _ _)
          have htail : ∀ x ∈ (k2, v2) :: fs', canonV x.2 = true :=
            fun x hx => hC x (List.mem_cons_of_mem _ hx)
          have hkey : dumpFields ((k, v) :: (k2, v2) :: fs') ++ (rbr :: rest) =
              '"' :: (escList k.data ++ '"' :: (':' :: (dumpVal v ++
                (',' :: (dumpFields ((k2, v2) :: fs') ++ (rbr :: rest)))))) := by
            show (strLit k ++ ':' :: (dumpVal v ++ dumpFieldsTail ((k2, v2) :: fs'))) ++ _ = _
            rw [strLit, dumpFieldsTail_cons]
            simp
          have hdf : (dumpFields ((k, v) :: (k2, v2) :: fs')).length =
              (strLit k).length + 1 + (dumpVal v).length +
                (dumpFields ((k2, v2) :: fs')).length + 1 := by
            show (strLit k ++ ':' :: (dumpVal v ++ dumpFieldsTail ((k2, v2) :: fs'))).length = _
            rw [dumpFieldsTail_cons]
            simp
            omega
          have hlen1 : (dumpVal v).length < f := by omega
          have hlen2 : (dumpFields ((k2, v2) :: fs')).length + 1 < f := by omega
          rw [parseFields_succ, hkey]
          show (match parseStrBody (escList k.data ++ '"' :: (':' :: (dumpVal v ++
              (',' :: (dumpFields ((k2, v2) :: fs') ++ (rbr :: rest)))))) with
            | none => none
            | some (kcs, r1) =>
                match wsSkip r1 with
                | ':' :: r2 =>
                    match parseVal f r2 with
                    | none => none
                    | some (w, r3) =>
                        match wsSkip r3 with
                        | ',' :: r4 => (parseFields f r4).map
                            fun (p : List (String × Json) × List Char) =>
                              ((String.mk kcs, w) :: p.1, p.2)
                        | c :: r4 =>
                            if c = rbr then some ([(String.mk kcs, w)], r4) else none
                        | [] => none
                | _ => none) = _
          rw [escList_rt]
          show (match parseVal f (dumpVal v ++ (',' ::
              (dumpFields ((k2, v2) :: fs') ++ (rbr :: rest)))) with
            | none => none
            | some (w, r3) =>
                match wsSkip r3 with
                | ',' :: r4 => (parseFields f r4).map
                    fun (p : List (String × Json) × List Char) =>
                      ((String.mk k.data, w) :: p.1, p.2)
                | c :: r4 =>
                    if c = rbr then some ([(String.mk k.data, w)], r4) else none
                | [] => none) = _
          rw [rt_val v f (',' :: (dumpFields ((k2, v2) :: fs') ++ (rbr :: rest)))
            hcv hlen1 rfl]
          show (parseFields f (dumpFields ((k2, v2) :: fs') ++ (rbr :: rest))).map
            (fun (p : List (String × Json) × List Char) =>
              ((String.mk k.data, v) :: p.1, p.2)) = _
          rw [rt_fields (k2, v2) fs' f rest htail hlen2, Option.map_some', strMk_data]
  termination_by kv fs _ _ _ _ => sizeOf kv + sizeOf fs

end

theorem mk_data (cs : List Char) : (String.mk cs).data = cs := rfl

theorem jsonParse_dump (v : Json) (h : canonV v = true) :
    jsonParse (String.mk (dumpVal v)) = some v := by
  rw [jsonParse, mk_data]
  have hrt := rt_val v ((dumpVal v).length + 1) [] h (Nat.lt_succ_self _) rfl
  rw [List.append_nil] at hrt
  rw [hrt]
  rfl

theorem objGetD_canonV (fs : List (String × Json)) (k : String) (d : Json)
    (hd : canonV d = true) (h : ∀ kv ∈ fs, canonV kv.2 = true) :
    canonV (objGetD fs k d) = true := by
  rw [objGetD]
  split
  · rename_i kv hf
    exact h kv (List.mem_of_find?_eq_some hf)
  · exact hd

theorem comparableOf_canon (v : Json) (h : canonV v = true) :
    canonV (comparableOf v) = true := by
  cases v with
  | obj fs =>
      have hvals : ∀ kv ∈ fs, canonV kv.2 = true := canonO_values fs h
      show (canonV (objGetD fs "action" (.str "")) && oBound "action" _ &&
        (canonV (objGetD fs "result" (.str "")) && oBound "result" [] && canonO [])) = true
      rw [objGetD_canonV fs "action" (.str "") rfl hvals,
        objGetD_canonV fs "result" (.str "") rfl hvals]
      rfl
  | null => exact h
  | bool b => exact h
  | num n => exact h
  | str s => exact h
  | arr es => exact h

theorem comparableOf_idem (v : Json) :
    comparableOf (comparableOf v) = comparableOf v := by
  cases v <;> rfl

/-- Claim C9: `normalize_vote` is idempotent — feeding a canonical key it
produced back in returns that very key; its output depends on the input only
through the parsed value, so insignificant whitespace and JSON key order
cannot affect it; for mapping records every field other than `action` and
`result` (such as `step_id`) is ignored, so two mapping records whose `action`
and `result` values agree get byte-identical canonical keys; and the spec's
concrete pair — compact vs. spaced-and-reordered — normalizes identically. -/
theorem c9_thm :
    (∀ s t : String, normalize_vote s = some t → normalize_vote t = some t)
  ∧ (∀ s₁ s₂ : String, jsonParse s₁ = jsonParse s₂ →
      normalize_vote s₁ = normalize_vote s₂)
  ∧ (∀ (s₁ s₂ : String) (fs₁ fs₂ : List (String × Json)),
      jsonParse s₁ = some (.obj fs₁) → jsonParse s₂ = some (.obj fs₂) →
      objGetD fs₁ "action" (.str "") = objGetD fs₂ "action" (.str "") →
      objGetD fs₁ "result" (.str "") = objGetD fs₂ "result" (.str "") →
      normalize_vote s₁ = normalize_vote s₂)
  ∧ normalize_vote "\x7b\"action\":\"x\",\"result\":\"y\",\"step_id\":\"3\"\x7d"
      = normalize_vote "  \x7b  \"result\" : \"y\" ,  \"action\" : \"x\"  \x7d " := by
  refine ⟨?_, ?_, ?_, ?_⟩
  · intro s t h
    obtain ⟨v, hv, ht⟩ := Option.map_eq_some'.mp h
    rw [← ht, normalize_vote,
      jsonParse_dump _ (comparableOf_canon v (jsonParse_canon s v hv)),
      Option.map_some', comparableOf_idem]
  · intro s₁ s₂ h
    rw [normalize_vote, normalize_vote, h]
  · intro s₁ s₂ fs₁ fs₂ h1 h2 ha hr
    rw [normalize_vote, normalize_vote, h1, h2, Option.map_some', Option.map_some']
    have hc : comparableOf (Json.obj fs₁) = comparableOf (Json.obj fs₂) := by
      show Json.obj [("action", objGetD fs₁ "action" (.str "")),
          ("result", objGetD fs₁ "result" (.str ""))] = _
      rw [ha, hr]
      rfl
    rw [hc]
  · rfl

/-- Witness for C9: the compact record is already canonical, so idempotence
applied to it closes at a concrete input. -/
theorem c9_witness :
    normalize_vote "\x7b\"action\":\"x\",\"result\":\"y\"\x7d"
      = some "\x7b\"action\":\"x\",\"result\":\"y\"\x7d" :=
  c9_thm.1 "\x7b\"action\":\"x\",\"result\":\"y\"\x7d"
    "\x7b\"action\":\"x\",\"result\":\"y\"\x7d" rfl

end Maker
